import Mathlib

/-!
Verification of the Blueprint compiler-and-runtime pipeline
(`src/blueprint/models.py`, `parser.py`, `validator.py`, `scheduler.py`,
`executor.py`) against its natural-language specification.

The Python sources are shallowly embedded: Pydantic models become
structures, dicts become association lists or update functions, Python
sets become lists used only through membership, exceptions become
`Except`, and wall-clock timestamps are abstracted to the constant 0
(no claim depends on real time).  Everything is executable so that
concrete counterexamples evaluate by `decide`.
-/

namespace BP

/-! ## Data model (`models.py`) -/

/-- `TaskStatus` enum (models.py). -/
inductive TaskStatus where
  | not_started | in_progress | complete | blocked | skipped
deriving Repr, DecidableEq

/-- `TierStatus` enum (models.py). -/
inductive TierStatus where
  | not_started | in_progress | complete | blocked
deriving Repr, DecidableEq

/-- `TimeoutAction` enum (models.py). -/
inductive TimeoutAction where
  | abort | skip | cont
deriving Repr, DecidableEq

/-- `Notification` model (models.py); channel kept as its raw string. -/
structure Notification where
  channel : String
  recipient : Option String := none
  variable_ : Option String := none
  variables_ : List String := []
  url : Option String := none
  webhook : Option String := none
deriving Repr, DecidableEq

/-- `HumanRequired` model (models.py). -/
structure HumanRequired where
  action : String
  reason : String
  notify : Notification
  timeout : Option String := none
  on_timeout : TimeoutAction := .abort
  on_missing : TimeoutAction := .abort
deriving Repr, DecidableEq

/-- `Interface` model (models.py): a task input/output contract. -/
structure Interface where
  input : String
  output : String
deriving Repr, DecidableEq

/-- `Task` model (models.py).  The untyped `example` dict field is not
carried: no embedded component reads it. -/
structure Task where
  task_id : String
  name : String
  status : TaskStatus := .not_started
  dependencies : List String := []
  iface : Option Interface := none
  acceptance_criteria : List String := []
  test_command : String := ""
  rollback : String := ""
  assignee : Option String := none
  estimated_sessions : Option Int := none
  files_to_create : List String := []
  files_to_modify : List String := []
  human_required : Option HumanRequired := none
  notes : Option String := none
deriving Repr, DecidableEq

/-- `Task.requires_human` (models.py). -/
def Task.requiresHuman (t : Task) : Bool := t.human_required.isSome

/-- `Tier` model (models.py), before the `compute_status` model validator
runs (Pydantic runs it on construction; see `mkTier`). -/
structure Tier where
  tier_id : String
  name : String
  tasks : List Task := []
  goal : Option String := none
  status : TierStatus := .not_started
deriving Repr, DecidableEq

/-- `Tier.completed_count` (models.py). -/
def Tier.completedCount (t : Tier) : Nat :=
  t.tasks.countP (fun x => x.status == .complete)

/-- `Tier.compute_status` model validator (models.py lines 172-185):
empty task list returns `self` unchanged; otherwise complete when every
task is complete, in-progress when at least one is complete, blocked when
some task is blocked, else the status field is left as constructed. -/
def computeStatus (t : Tier) : Tier :=
  if t.tasks = [] then t
  else
    let completed := t.completedCount
    let total := t.tasks.length
    if completed = total then { t with status := .complete }
    else if completed > 0 then { t with status := .in_progress }
    else if t.tasks.any (fun x => x.status == .blocked) then { t with status := .blocked }
    else t

/-- Constructing a `Tier` (Pydantic `Tier(...)`) runs `compute_status`. -/
def mkTier (tier_id name : String) (tasks : List Task) (goal : Option String)
    (status : TierStatus) : Tier :=
  computeStatus { tier_id := tier_id, name := name, tasks := tasks, goal := goal, status := status }

/-- `SuccessMetric` model (models.py). -/
structure SuccessMetric where
  metric : String
  target : String
  validation : Option String := none
deriving Repr, DecidableEq

/-- `Metadata` model (models.py); dates kept as raw ISO strings. -/
structure Metadata where
  title : String
  status : String := "draft"
  owner : String := "Unknown"
  description : Option String := none
  created : Option String := none
  updated : Option String := none
  repository : Option String := none
deriving Repr, DecidableEq

/-- `DependencyEdge` model (models.py). -/
structure DependencyEdge where
  from_task : String
  to_task : String
deriving Repr, DecidableEq

/-- `ParallelGroup` model (models.py). -/
structure ParallelGroup where
  group_id : String
  tasks : List String
  description : Option String := none
deriving Repr, DecidableEq

/-- `DependencyGraph` model (models.py). -/
structure DependencyGraph where
  nodes : List String := []
  edges : List DependencyEdge := []
  parallelizable_groups : List ParallelGroup := []
deriving Repr, DecidableEq

/-- `BlueprintRef` model (models.py). -/
structure BlueprintRef where
  ref : String
  required : Bool := true
  inline : Bool := false
deriving Repr, DecidableEq

/-- `Blueprint` model (models.py).  Note: the model declares no field or
property named `tasks`; `all_tasks` is a method. -/
structure Blueprint where
  blueprint_version : String := "0.1.0"
  metadata : Metadata
  tiers : List Tier := []
  strategic_vision : Option String := none
  success_metrics : List SuccessMetric := []
  dependency_graph : Option DependencyGraph := none
  refs : List BlueprintRef := []
deriving Repr, DecidableEq

/-- `Blueprint.all_tasks` (models.py): tasks of all tiers in order. -/
def allTasks (bp : Blueprint) : List Task :=
  (bp.tiers.map (·.tasks)).flatten

/-- `Blueprint.get_task` (models.py): first task with the given id. -/
def getTask (bp : Blueprint) (id : String) : Option Task :=
  (allTasks bp).find? (fun t => t.task_id == id)

end BP

namespace BP

/-! ## String helpers shared by the embedded components

Python strings are sequences of Unicode code points; Lean `Char` is a
Unicode scalar, so `String.toList` gives the same sequence. -/

/-- `needle in hay` for `List Char` (Python substring containment). -/
def hasInfixL (needle : List Char) : List Char → Bool
  | [] => List.isPrefixOf needle []
  | c :: rest => List.isPrefixOf needle (c :: rest) || hasInfixL needle rest

/-- Python `sub in s` on strings. -/
def strContains (hay sub : String) : Bool := hasInfixL sub.toList hay.toList

/-- Python `s.startswith(p)`. -/
def strStartsWith (s p : String) : Bool := List.isPrefixOf p.toList s.toList

/-- ASCII case folding for one character.  Python `str.lower()` is full
Unicode; every string the embedded code lowers here is ASCII. -/
def pyToLower (c : Char) : Char :=
  if 65 ≤ c.val.toNat ∧ c.val.toNat ≤ 90 then Char.ofNat (c.val.toNat + 32) else c

/-- Python `s.lower()` (ASCII fragment, see `pyToLower`). -/
def pyLower (s : String) : String := String.mk (s.toList.map pyToLower)

/-- Python `s.replace(" ", "_")`. -/
def spacesToUnderscores (s : String) : String :=
  String.mk (s.toList.map (fun c => if c = ' ' then '_' else c))

/-- Helper for Python whitespace-splitting `s.split()`. -/
def splitWsAux (cur : List Char) : List Char → List String
  | [] => if cur = [] then [] else [String.mk cur.reverse]
  | c :: rest =>
    if c.isWhitespace then
      if cur = [] then splitWsAux [] rest
      else String.mk cur.reverse :: splitWsAux [] rest
    else splitWsAux (c :: cur) rest

/-- Python `s.split()`: split on whitespace runs, dropping empties. -/
def pySplit (s : String) : List String := splitWsAux [] s.toList

/-- Python truthiness/blank test `not s or not s.strip()`:
true iff every character is whitespace (including the empty string). -/
def isBlank (s : String) : Bool := s.toList.all (·.isWhitespace)

/-- Code-point lexicographic `≤` on character lists (Python string order). -/
def strListLe : List Char → List Char → Bool
  | [], _ => true
  | _ :: _, [] => false
  | a :: as, b :: bs =>
    if a.val.toNat < b.val.toNat then true
    else if b.val.toNat < a.val.toNat then false
    else strListLe as bs

/-- Python `s <= t` on strings (code-point lexicographic). -/
def pyStrLe (s t : String) : Bool := strListLe s.toList t.toList

/-- Python `sorted(l)` for a list of strings. -/
def pySorted (l : List String) : List String :=
  List.insertionSort (fun a b => pyStrLe a b = true) l

/-! ## Parser (`parser.py`)

The regex/YAML text-extraction layer is out of the embedding; the
embedding starts at the extracted key-value records, which is where every
claim about the parser lives (`_parse_task`, tier assembly, `_parse_dict`).
An extracted record field is `none` when the key is absent. -/

/-- The `interface` sub-record of a task block (`data["interface"]`). -/
structure InterfaceRecord where
  input : Option String := none
  output : Option String := none
deriving Repr, DecidableEq

/-- The `notify` sub-record of a `human_required` block. -/
structure NotifyRecord where
  channel : Option String := none
  recipient : Option String := none
  variable_ : Option String := none
  variables_ : Option (List String) := none
  url : Option String := none
  webhook : Option String := none
deriving Repr, DecidableEq

/-- The `human_required` sub-record of a task block. -/
structure HumanRecord where
  action : Option String := none
  reason : Option String := none
  notify : Option NotifyRecord := none
  timeout : Option String := none
  on_timeout : Option String := none
  on_missing : Option String := none
deriving Repr, DecidableEq

/-- One extracted key-value task record (the dict `_parse_task` receives).
A field is `none` when the key is absent from the block. -/
structure TaskRecord where
  task_id : Option String := none
  name : Option String := none
  status : Option String := none
  dependencies : Option (List String) := none
  iface : Option InterfaceRecord := none
  acceptance_criteria : Option (List String) := none
  test_command : Option String := none
  rollback : Option String := none
  assignee : Option String := none
  estimated_sessions : Option Int := none
  files_to_create : Option (List String) := none
  files_to_modify : Option (List String) := none
  human_required : Option HumanRecord := none
  notes : Option String := none
deriving Repr, DecidableEq

/-- `_parse_timeout_action` (parser.py lines 205-216). -/
def parseTimeoutAction (value : Option String) : TimeoutAction :=
  match value with
  | none => .abort
  | some v =>
    if v = "" then .abort
    else
      let vl := pyLower v
      if strStartsWith vl "abort" then .abort
      else if strStartsWith vl "skip" then .skip
      else if strStartsWith vl "continue" then .cont
      else .abort

/-- The `status_map` dict of `_parse_task` (parser.py lines 222-233), in
its insertion order: five glyphs, then the five canonical names. -/
def statusTable : List (String × TaskStatus) :=
  [("🔲", .not_started), ("🔄", .in_progress), ("✅", .complete),
   ("⛔", .blocked), ("⏭️", .skipped),
   ("not_started", .not_started), ("in_progress", .in_progress),
   ("complete", .complete), ("blocked", .blocked), ("skipped", .skipped)]

/-- The status loop of `_parse_task` (parser.py lines 234-238): first
table key occurring as a substring of the raw value wins, else
not-started.  Matching is `key in str(status_str)`: plain substring
containment, case-sensitive, with no normalization. -/
def parseTaskStatus (s : String) : TaskStatus :=
  match statusTable.find? (fun kv => strContains s kv.1) with
  | some kv => kv.2
  | none => .not_started

/-- `Task.parse_status` field validator (models.py lines 114-132), the
path taken when a `Task` is constructed directly with a string status:
glyph prefix match, else lower-case and replace spaces by underscores.
(The resulting string must then name a `TaskStatus` member or Pydantic
raises; `none` models that rejection.) -/
def modelParseStatus (v : String) : Option TaskStatus :=
  let glyphs : List (String × TaskStatus) :=
    [("🔲", .not_started), ("🔄", .in_progress), ("✅", .complete),
     ("⛔", .blocked), ("⏭️", .skipped)]
  match glyphs.find? (fun kv => strStartsWith v kv.1) with
  | some kv => some kv.2
  | none =>
    let n := spacesToUnderscores (pyLower v)
    if n = "not_started" then some .not_started
    else if n = "in_progress" then some .in_progress
    else if n = "complete" then some .complete
    else if n = "blocked" then some .blocked
    else if n = "skipped" then some .skipped
    else none

/-- `_parse_task` (parser.py lines 219-282): build a `Task` from an
extracted record.  `data.get("interface", {})` followed by
`.get("input", "")` / `.get("output", "")` always constructs an
`Interface`, with empty-string defaults. -/
def parseTask (r : TaskRecord) : Task :=
  let statusStr := r.status.getD "not_started"
  let ifr := r.iface.getD {}
  let hr : Option HumanRequired :=
    match r.human_required with
    | none => none
    | some h =>
      let n := h.notify.getD {}
      some { action := h.action.getD "",
             reason := h.reason.getD "",
             notify := { channel := n.channel.getD "console",
                         recipient := n.recipient,
                         variable_ := n.variable_,
                         variables_ := (n.variables_).getD [],
                         url := n.url,
                         webhook := n.webhook },
             timeout := h.timeout,
             on_timeout := parseTimeoutAction (some (h.on_timeout.getD "abort")),
             on_missing := parseTimeoutAction (some (h.on_missing.getD "abort")) }
  { task_id := r.task_id.getD "",
    name := r.name.getD "",
    status := parseTaskStatus statusStr,
    dependencies := r.dependencies.getD [],
    iface := some { input := ifr.input.getD "", output := ifr.output.getD "" },
    acceptance_criteria := r.acceptance_criteria.getD [],
    test_command := r.test_command.getD "",
    rollback := r.rollback.getD "",
    assignee := r.assignee,
    estimated_sessions := r.estimated_sessions,
    files_to_create := r.files_to_create.getD [],
    files_to_modify := r.files_to_modify.getD [],
    human_required := hr,
    notes := r.notes }

/-- One extracted `## Tier n:` section of a Markdown document: its
number, name, optional goal line, and the task records of its fenced
blocks in document order. -/
structure TierBlock where
  num : Nat
  name : String
  goal : Option String := none
  blocks : List TaskRecord := []
deriving Repr, DecidableEq

/-- `_build_dependency_graph` (parser.py lines 343-355). -/
def buildDependencyGraph (tiers : List Tier) : DependencyGraph :=
  let tasks := (tiers.map (·.tasks)).flatten
  { nodes := tasks.map (·.task_id),
    edges := (tasks.map (fun t =>
      t.dependencies.map (fun dep => DependencyEdge.mk dep t.task_id))).flatten,
    parallelizable_groups := [] }

/-- The tier-assembly loop of `parse_markdown` (parser.py lines 79-92 and
186-192): records lacking a `task_id` key are silently skipped; the tier
is constructed (running `compute_status`) and then its status is
reassigned from the parser's own derivation.  Pydantic does not re-run
validators on assignment. -/
def parseMarkdownTier (tb : TierBlock) : Tier :=
  let tasks := (tb.blocks.filter (fun r => r.task_id.isSome)).map parseTask
  let tier := mkTier ("T" ++ toString tb.num) tb.name tasks tb.goal .not_started
  if tasks.all (fun t => t.status == .complete) then { tier with status := .complete }
  else if tasks.any (fun t => t.status == .in_progress || t.status == .complete) then
    { tier with status := .in_progress }
  else tier

/-- `parse_markdown` (parser.py lines 72-103), starting from the extracted
metadata/vision/metrics/tier sections. -/
def parseMarkdown (metadata : Metadata) (vision : Option String)
    (metrics : List SuccessMetric) (tbs : List TierBlock) : Blueprint :=
  let tiers := tbs.map parseMarkdownTier
  { blueprint_version := "0.1.0",
    metadata := metadata,
    tiers := tiers,
    strategic_vision := vision,
    success_metrics := metrics,
    dependency_graph := some (buildDependencyGraph tiers) }

/-- Python exceptions surfaced by the embedded code. -/
inductive PyExn where
  | attributeError (msg : String)
  | valueError (msg : String)
  | handlerExn (msg : String)
deriving Repr, DecidableEq

/-- `TierStatus(value)` enum construction: raises `ValueError` on an
unknown value. -/
def tierStatusOf (s : String) : Except PyExn TierStatus :=
  if s = "not_started" then .ok .not_started
  else if s = "in_progress" then .ok .in_progress
  else if s = "complete" then .ok .complete
  else if s = "blocked" then .ok .blocked
  else .error (.valueError ("not a valid TierStatus: " ++ s))

/-- One `tiers[]` entry of a JSON document. -/
structure TierRecord where
  tier_id : Option String := none
  name : Option String := none
  goal : Option String := none
  status : Option String := none
  tasks : List TaskRecord := []
deriving Repr, DecidableEq

/-- A JSON Blueprint document, at the granularity `_parse_dict` reads. -/
structure BlueprintRecord where
  blueprint_version : Option String := none
  metadata : Metadata := { title := "Untitled" }
  tiers : List TierRecord := []
  strategic_vision : Option String := none
  success_metrics : List SuccessMetric := []
  dependency_graph : Option DependencyGraph := none
deriving Repr, DecidableEq

/-- The tier loop of `_parse_dict` (parser.py lines 296-306): every task
record is parsed (no `task_id` filter on the JSON path) and the tier is
constructed with a status parsed by the `TierStatus` enum. -/
def parseDictTier (tr : TierRecord) : Except PyExn Tier := do
  let tasks := tr.tasks.map parseTask
  let st ← tierStatusOf (tr.status.getD "not_started")
  pure (mkTier (tr.tier_id.getD "") (tr.name.getD "") tasks tr.goal st)

/-- `_parse_dict` (parser.py lines 285-340), the body of `parse_json`. -/
def parseDict (br : BlueprintRecord) : Except PyExn Blueprint := do
  let tiers ← br.tiers.mapM parseDictTier
  pure { blueprint_version := br.blueprint_version.getD "0.1.0",
         metadata := br.metadata,
         tiers := tiers,
         strategic_vision := br.strategic_vision,
         success_metrics := br.success_metrics,
         dependency_graph := br.dependency_graph }

end BP

namespace BP

/-! ## Validator (`validator.py`) -/

/-- `ValidationError` dataclass (validator.py). -/
structure ValidationError where
  code : String
  message : String
  task_id : Option String := none
  severity : String := "error"
deriving Repr, DecidableEq

/-- `ValidationResult` dataclass (validator.py). -/
structure ValidationResult where
  passed : Bool
  errors : List ValidationError := []
  warnings : List ValidationError := []
deriving Repr, DecidableEq

/-- The dict `{t.task_id: t for t in tasks}` (also the `graph` dict of
`_detect_circular_dependencies` is keyed the same way): on duplicate ids
the later task wins. -/
def taskMap (tasks : List Task) (u : String) : Option Task :=
  tasks.reverse.find? (fun t => t.task_id == u)

/-- `graph.get(node, [])` of `_detect_circular_dependencies`:
the dependency list of the winning task with that id, else `[]`. -/
def depsOf (tasks : List Task) (u : String) : List String :=
  ((taskMap tasks u).map (·.dependencies)).getD []

/-- First-occurrence deduplication: the iteration order of the keys of a
Python dict built by repeated assignment. -/
def firstDedup (l : List String) : List String :=
  l.foldl (fun acc a => if a ∈ acc then acc else acc ++ [a]) []

/-- The mutable state of the `dfs` closure in
`_detect_circular_dependencies`: `visited` and `rec_stack` are Python
sets (modelled as lists used through membership), `path` the explicit
path list, `cycles` the accumulator. -/
structure DfsState where
  visited : List String
  recStack : List String
  path : List String
  cycles : List (List String)
deriving Repr, DecidableEq

/-- `path[path.index(neighbor):] + [neighbor]` (validator.py 182-183). -/
def cycleFrom (path : List String) (n : String) : List String :=
  path.drop (path.indexOf n) ++ [n]

/-- The recursive `dfs` of `_detect_circular_dependencies` (validator.py
lines 172-187), fuelled: each nesting level consumes one unit, and
`detectCircular` supplies more fuel than there are distinct node names,
so the 0 branch is never reached (proved below). -/
def dfsVisit (g : String → List String) : Nat → String → DfsState → DfsState
  | 0, _, s => s
  | f+1, node, s =>
    let s1 : DfsState :=
      { visited := s.visited.insert node, recStack := s.recStack.insert node,
        path := s.path ++ [node], cycles := s.cycles }
    let s2 := (g node).foldl (fun t n =>
        if n ∉ t.visited then dfsVisit g f n t
        else if n ∈ t.recStack then { t with cycles := t.cycles ++ [cycleFrom t.path n] }
        else t) s1
    { s2 with path := s2.path.dropLast, recStack := s2.recStack.erase node }

/-- The per-neighbor body of the `dfs` loop, named for reasoning. -/
def dfsStep (g : String → List String) (f : Nat) (t : DfsState) (n : String) : DfsState :=
  if n ∉ t.visited then dfsVisit g f n t
  else if n ∈ t.recStack then { t with cycles := t.cycles ++ [cycleFrom t.path n] }
  else t

theorem dfsVisit_succ (g : String → List String) (f : Nat) (node : String) (s : DfsState) :
    dfsVisit g (f+1) node s =
      (let s1 : DfsState :=
        { visited := s.visited.insert node, recStack := s.recStack.insert node,
          path := s.path ++ [node], cycles := s.cycles }
       let s2 := (g node).foldl (dfsStep g f) s1
       { s2 with path := s2.path.dropLast, recStack := s2.recStack.erase node }) := rfl

/-- `_detect_circular_dependencies` (validator.py lines 158-193): build
the last-wins adjacency dict, then run `dfs` from each unvisited key in
first-insertion order, each start with a fresh empty path. -/
def detectCircular (tasks : List Task) : List (List String) :=
  let g := depsOf tasks
  let keys := firstDedup (tasks.map (·.task_id))
  let fuel := (tasks.map (·.task_id) ++ (tasks.map (·.dependencies)).flatten).length + 1
  (keys.foldl (fun s k =>
      if k ∈ s.visited then s else dfsVisit g fuel k { s with path := [] })
    { visited := [], recStack := [], path := [], cycles := [] }).cycles

/-- Attribute access `t.interface.output` (validator.py line 212):
raises `AttributeError` when the optional interface is `None`. -/
def ifaceOutputAttr (t : Task) : Except PyExn String :=
  match t.iface with
  | some i => .ok i.output
  | none => .error (.attributeError "NoneType object has no attribute output")

/-- Attribute access `t.interface.input` (validator.py line 213). -/
def ifaceInputAttr (t : Task) : Except PyExn String :=
  match t.iface with
  | some i => .ok i.input
  | none => .error (.attributeError "NoneType object has no attribute input")

/-- The inner dependency loop of `_check_interface_compatibility`
(validator.py lines 205-230) for one task. -/
def checkInterfaceTask (tasks : List Task) (t : Task) :
    Except PyExn (List ValidationError) :=
  t.dependencies.foldlM (fun acc dep_id => do
    match taskMap tasks dep_id with
    | none => pure acc
    | some dep_task => do
      let depOut ← ifaceOutputAttr dep_task
      let tIn ← ifaceInputAttr t
      let dep_output := pyLower depOut
      let task_input := pyLower tIn
      if dep_output ≠ "" ∧ task_input ≠ "" then
        let dep_terms := firstDedup (pySplit dep_output)
        let input_terms := firstDedup (pySplit task_input)
        let common := dep_terms.filter (fun x => x ∈ input_terms)
        if common = [] ∧ dep_terms.length > 2 ∧ input_terms.length > 2 then
          pure (acc ++ [{ code := "INTERFACE_MISMATCH",
                          message := "Interface may not match",
                          task_id := some t.task_id,
                          severity := "warning" }])
        else pure acc
      else pure acc) []

/-- `_check_interface_compatibility` (validator.py lines 196-232). -/
def checkInterfaceCompat (tasks : List Task) : Except PyExn (List ValidationError) :=
  tasks.foldlM (fun acc t => do
    let ws ← checkInterfaceTask tasks t
    pure (acc ++ ws)) []

/-- Check 1 of `validate`: duplicate ids, reported at each occurrence
after the first (validator.py lines 71-80). -/
def dupErrors (tasks : List Task) : List ValidationError :=
  (tasks.foldl (fun (p : List String × List ValidationError) t =>
      let (seen, errs) := p
      let errs := if t.task_id ∈ seen then
          errs ++ [{ code := "DUPLICATE_ID",
                     message := "Duplicate task ID: " ++ t.task_id,
                     task_id := some t.task_id }]
        else errs
      (seen.insert t.task_id, errs)) ([], [])).2

/-- Check 2 of `validate`: dependency ids absent from the id set
(validator.py lines 82-90). -/
def missingDepErrors (tasks : List Task) : List ValidationError :=
  (tasks.map (fun t =>
    (t.dependencies.filter (fun dep => ¬ tasks.any (fun x => x.task_id == dep))).map
      (fun dep => { code := "MISSING_DEP",
                    message := "Dependency does not exist: " ++ dep,
                    task_id := some t.task_id : ValidationError }))).flatten

/-- Check 3 of `validate`: one `CIRCULAR_DEP` error per reported cycle
(validator.py lines 92-98). -/
def circularErrors (tasks : List Task) : List ValidationError :=
  (detectCircular tasks).map (fun cyc =>
    { code := "CIRCULAR_DEP",
      message := "Circular dependency detected: " ++ String.intercalate " -> " cyc })

/-- Check 4 of `validate`: required fields, errors only
(validator.py lines 100-119). -/
def fieldErrors (tasks : List Task) : List ValidationError :=
  (tasks.map (fun t =>
    (if t.task_id = "" then
      [{ code := "MISSING_FIELD", message := "task_id is required",
         task_id := some "unknown" : ValidationError }] else []) ++
    (if t.name = "" then
      [{ code := "MISSING_FIELD", message := "name is required",
         task_id := some t.task_id : ValidationError }] else []) ++
    (if isBlank t.test_command then
      [{ code := "MISSING_TEST", message := "test_command is required and cannot be empty",
         task_id := some t.task_id : ValidationError }] else []))).flatten

/-- Check 4 of `validate`: the rollback/criteria warnings
(validator.py lines 120-133). -/
def fieldWarnings (tasks : List Task) : List ValidationError :=
  (tasks.map (fun t =>
    (if isBlank t.rollback then
      [{ code := "MISSING_ROLLBACK", message := "rollback command is empty (recommended)",
         task_id := some t.task_id, severity := "warning" : ValidationError }] else []) ++
    (if t.acceptance_criteria = [] then
      [{ code := "NO_CRITERIA", message := "No acceptance criteria defined",
         task_id := some t.task_id, severity := "warning" : ValidationError }] else []))).flatten

/-- Check 6 of `validate`: metadata warnings (validator.py lines 140-152). -/
def metadataWarnings (bp : Blueprint) : List ValidationError :=
  (if bp.metadata.title = "" then
    [{ code := "NO_TITLE", message := "Blueprint has no title",
       severity := "warning" : ValidationError }] else []) ++
  (if bp.metadata.owner = "" then
    [{ code := "NO_OWNER", message := "Blueprint has no owner",
       severity := "warning" : ValidationError }] else [])

/-- `validate` (validator.py lines 48-155).  Checks 1-4 and 6 are pure;
check 5 (`_check_interface_compatibility`) performs the unguarded
attribute accesses and is the only step that can raise. -/
def validate (bp : Blueprint) : Except PyExn ValidationResult := do
  let tasks := allTasks bp
  let errors := dupErrors tasks ++ missingDepErrors tasks ++
    circularErrors tasks ++ fieldErrors tasks
  let ifaceWarnings ← checkInterfaceCompat tasks
  let warnings := fieldWarnings tasks ++ ifaceWarnings ++ metadataWarnings bp
  pure { passed := errors = [], errors := errors, warnings := warnings }

end BP

namespace BP

/-! ## Scheduler (`scheduler.py`) -/

/-- `ExecutionGroup` dataclass (scheduler.py). -/
structure ExecutionGroup where
  group_id : String
  tasks : List String
  description : Option String := none
deriving Repr, DecidableEq

/-- `ExecutionPlan` dataclass (scheduler.py). -/
structure ExecutionPlan where
  blueprint_title : String
  total_tasks : Nat
  groups : List ExecutionGroup := []
  blocked_tasks : List String := []
  human_required_tasks : List String := []
deriving Repr, DecidableEq

/-- Pointwise update of a dict modelled as a function. -/
def fupd (f : String → Int) (k : String) (v : Int) : String → Int :=
  fun x => if x = k then v else f x

/-- The initial `in_degree` dict (scheduler.py lines 82-84): keyed by the
task ids, the winning value for a duplicated id being the length of the
last task's dependency list. -/
def inDeg0 (tasks : List Task) : String → Int :=
  fun u => ((taskMap tasks u).map (fun t => (t.dependencies.length : Int))).getD 0

/-- The `dependents` dict (scheduler.py lines 86-89): for an existing id
`u`, one occurrence of `t.task_id` per occurrence of `u` in
`t.dependencies`, in task order. -/
def dependentsOf (tasks : List Task) (u : String) : List String :=
  if tasks.any (fun t => t.task_id == u) then
    tasks.foldl (fun acc t =>
      acc ++ (t.dependencies.filter (fun d => d == u)).map (fun _ => t.task_id)) []
  else []

/-- The mutable loop state of `create_execution_plan`.  `completed` and
`remaining` are Python sets, used only through membership; the order in
which `blocked.extend(remaining)` walks the set is unspecified in Python,
so the model fixes the list order carried by `remaining` (membership is
the specified content). -/
structure SchedState where
  inDeg : String → Int
  completed : List String
  remaining : List String
  groups : List ExecutionGroup
  blocked : List String
  groupNum : Nat

/-- The `ready` collection of one leveling iteration
(scheduler.py lines 100-105). -/
def readyOf (tasks : List Task) (s : SchedState) : List String :=
  s.remaining.filter (fun id =>
    s.inDeg id == 0 || (depsOf tasks id).all (fun dep => s.completed.contains dep))

/-- The body of one productive leveling iteration
(scheduler.py lines 111-124). -/
def schedStep (tasks : List Task) (s : SchedState) : SchedState :=
  let ready := readyOf tasks s
  let n := s.groupNum + 1
  let group : ExecutionGroup :=
    { group_id := "G" ++ toString n,
      tasks := pySorted ready,
      description := some ("Parallel group " ++ toString n ++ " (" ++
        toString ready.length ++ " tasks)") }
  let inDeg := ready.foldl (fun f id =>
      (dependentsOf tasks id).foldl (fun f2 dep =>
        if tasks.any (fun t => t.task_id == dep) then fupd f2 dep (f2 dep - 1) else f2) f)
    s.inDeg
  { inDeg := inDeg,
    completed := s.completed ++ ready,
    remaining := s.remaining.filter (fun id => id ∉ ready),
    groups := s.groups ++ [group],
    blocked := s.blocked,
    groupNum := n }

/-- The `while remaining:` leveling loop (scheduler.py lines 99-124),
fuelled; `createExecutionPlan` supplies fuel `|remaining| + 1`, which is
proved sufficient below (each productive iteration removes at least one
id from `remaining`). -/
def levelLoop (tasks : List Task) : Nat → SchedState → SchedState
  | 0, s => s
  | f+1, s =>
    if s.remaining = [] then s
    else if readyOf tasks s = [] then { s with blocked := s.blocked ++ s.remaining }
    else levelLoop tasks f (schedStep tasks s)

/-- The loop state `create_execution_plan` seeds the leveling loop with
(scheduler.py lines 79-97). -/
def initialSched (tasks : List Task) : SchedState :=
  let completed := (tasks.filter (fun t => t.status == .complete)).map (·.task_id)
  { inDeg := inDeg0 tasks,
    completed := completed,
    remaining := (firstDedup (tasks.map (·.task_id))).filter (fun id => id ∉ completed),
    groups := [],
    blocked := (tasks.filter (fun t => t.status == .blocked)).map (·.task_id),
    groupNum := 0 }

/-- `create_execution_plan` (scheduler.py lines 74-132). -/
def createExecutionPlan (bp : Blueprint) : ExecutionPlan :=
  let tasks := allTasks bp
  let s0 := initialSched tasks
  let sF := levelLoop tasks (s0.remaining.length + 1) s0
  { blueprint_title := bp.metadata.title,
    total_tasks := tasks.length,
    groups := sF.groups,
    blocked_tasks := sF.blocked,
    human_required_tasks := (tasks.filter (·.requiresHuman)).map (·.task_id) }

end BP

namespace BP

/-! ## Executor (`executor.py`)

Wall-clock instants are abstracted to `0` (no claim depends on time).
A task handler is a Python callable that either returns a `TaskResult`
or raises; a raised exception is modelled as `Except.error` carrying
`str(e)`. -/

/-- `ExecutionMode` enum (executor.py). -/
inductive ExecutionMode where
  | dry_run | sequential | parallel
deriving Repr, DecidableEq

/-- `TaskResult` dataclass (executor.py). -/
structure TaskResult where
  task_id : String
  success : Bool
  start_time : Nat := 0
  end_time : Option Nat := none
  output : Option String := none
  error : Option String := none
  test_passed : Option Bool := none
deriving Repr, DecidableEq

/-- The `ExecutionState.results` dict and the `pending_human` list: the
only mutable state a run writes. -/
structure RunState where
  results : List (String × TaskResult) := []
  pending : List String := []
deriving Repr, DecidableEq

/-- Python dict assignment `d[k] = v`: replace in place when the key is
present (keeping its position), else append. -/
def dictInsert (m : List (String × TaskResult)) (k : String) (v : TaskResult) :
    List (String × TaskResult) :=
  if m.any (fun p => p.1 == k) then
    m.map (fun p => if p.1 == k then (k, v) else p)
  else m ++ [(k, v)]

/-- Lookup in the results dict. -/
def dictFind (m : List (String × TaskResult)) (k : String) : Option TaskResult :=
  (m.find? (fun p => p.1 == k)).map (·.2)

/-- `ExecutionState.failed_count` (executor.py lines 62-64). -/
def failedCount (st : RunState) : Nat :=
  st.results.countP (fun p => ¬ p.2.success)

/-- An injected synchronous task handler: returns a result or raises. -/
def Handler : Type := Task → Except String TaskResult

/-- `_execute_task` (executor.py lines 322-379): human-required tasks
short-circuit to a synthetic failed result (appending to
`pending_human`) without invoking any handler; otherwise the injected
handler runs unguarded (its exception propagates), and with no handler a
simulated success is produced.  Returns the result plus the
`pending_human` ids appended. -/
def executeTask (handler : Option Handler) (t : Task) :
    Except String (TaskResult × List String) :=
  match t.human_required with
  | some hr =>
    .ok ({ task_id := t.task_id, success := false, start_time := 0,
           end_time := some 0,
           error := some ("HUMAN_REQUIRED: " ++ hr.action) }, [t.task_id])
  | none =>
    match handler with
    | some h => (h t).map (fun r => (r, []))
    | none =>
      .ok ({ task_id := t.task_id, success := true, start_time := 0,
             end_time := some 0,
             output := some ("Simulated execution of " ++ t.name),
             test_passed := some true }, [])

/-- `_execute_sequential` (executor.py lines 226-234): one task at a
time, recording each result and breaking on the first failure.  A
handler exception propagates out (there is no try/except on this path);
the in-place mutations made before the raise survive on the state. -/
def executeSequential (bp : Blueprint) (handler : Option Handler) :
    List String → RunState → RunState × Option String
  | [], st => (st, none)
  | id :: rest, st =>
    match getTask bp id with
    | none => executeSequential bp handler rest st
    | some task =>
      match executeTask handler task with
      | .error e => (st, some e)
      | .ok (r, ph) =>
        let st' : RunState := { results := dictInsert st.results id r,
                                pending := st.pending ++ ph }
        if r.success then executeSequential bp handler rest st'
        else (st', none)

/-- The per-coroutine outcome in `_execute_tasks_async` (executor.py
lines 285-310): `asyncio.gather(..., return_exceptions=True)` hands back
either the task's own result or its captured exception, which is
converted to a failed `TaskResult` carrying `str(e)`. -/
def capturedOutcome (handler : Option Handler) (t : Task) : TaskResult × List String :=
  match executeTask handler t with
  | .ok p => p
  | .error e =>
    ({ task_id := t.task_id, success := false, start_time := 0,
       end_time := some 0, error := some e }, [])

/-- `_execute_tasks_async` (executor.py lines 285-310): results in task
order; each element is that task's own captured outcome, independent of
its siblings.  (Pending-human appends from concurrent coroutines land in
an unspecified interleaving; the model concatenates in task order —
membership is the specified content.) -/
def executeTasksAsync (handler : Option Handler) (tasks : List Task) :
    List TaskResult × List String :=
  (tasks.map (fun t => (capturedOutcome handler t).1),
   (tasks.map (fun t => (capturedOutcome handler t).2)).flatten)

/-- `_execute_parallel` (executor.py lines 236-283) on the ordinary
synchronous call path: no event loop is running, so the
`asyncio.run(_execute_tasks_async(...))` branch executes and the zipped
results are written into the results dict in task order. -/
def executeParallel (bp : Blueprint) (handler : Option Handler)
    (ids : List String) (st : RunState) : RunState :=
  if ids = [] then st
  else
    let tasks := ids.filterMap (getTask bp)
    if tasks = [] then st
    else
      let (results, ph) := executeTasksAsync handler tasks
      { results := (tasks.zip results).foldl
          (fun m p => dictInsert m p.1.task_id p.2) st.results,
        pending := st.pending ++ ph }

/-- The group loop of `execute` (executor.py lines 164-199): sequential
groups run `_execute_sequential` (a handler exception aborts the run),
every other mode in the loop runs `_execute_parallel`; after each group
`_should_stop` halts the run when any recorded result failed. -/
def runPlanGroups (bp : Blueprint) (handler : Option Handler) (mode : ExecutionMode) :
    List ExecutionGroup → RunState → RunState × Option String
  | [], st => (st, none)
  | g :: rest, st =>
    if mode = .sequential then
      match executeSequential bp handler g.tasks st with
      | (st', some e) => (st', some e)
      | (st', none) =>
        if failedCount st' > 0 then (st', none)
        else runPlanGroups bp handler mode rest st'
    else
      let st' := executeParallel bp handler g.tasks st
      if failedCount st' > 0 then (st', none)
      else runPlanGroups bp handler mode rest st'

/-- `ExecutionState` (executor.py lines 45-85), at the granularity the
claims read. -/
structure ExecutionState where
  blueprint_title : String
  mode : ExecutionMode
  started_at : Nat := 0
  completed_at : Option Nat := none
  run : RunState := {}
deriving Repr, DecidableEq

/-- Python attribute lookup `self.blueprint.tasks` (executor.py line
151).  The `Blueprint` Pydantic model (models.py lines 277-328) declares
the fields `blueprint_version`, `metadata`, `tiers`, `strategic_vision`,
`success_metrics`, `dependency_graph`, `document_control`, `refs` and
the methods `all_tasks`/`get_task`/... — there is no attribute `tasks`,
so the lookup raises `AttributeError`.  (The unit tests pass a
`MockBlueprint` that does define a `tasks` property, which is how the
executor tests avoid this.) -/
def blueprintTasksAttr (_ : Blueprint) : Except PyExn (List Task) :=
  .error (.attributeError "Blueprint object has no attribute tasks")

/-- `BlueprintExecutor.execute` (executor.py lines 119-224):
builds the state and the plan, then emits the run-start log record whose
`extra` dict evaluates `len(self.blueprint.tasks)` before any
mode-specific branch (the DRY_RUN early return included) is reached. -/
def execute (bp : Blueprint) (mode : ExecutionMode) (handler : Option Handler) :
    Except PyExn ExecutionState := do
  let st0 : ExecutionState := { blueprint_title := bp.metadata.title, mode := mode }
  let plan := createExecutionPlan bp
  let _ ← blueprintTasksAttr bp
  if mode = .dry_run then
    pure { st0 with completed_at := some 0 }
  else
    match runPlanGroups bp handler mode plan.groups st0.run with
    | (run', none) => pure { st0 with run := run', completed_at := some 0 }
    | (_, some e) => .error (.handlerExn e)

/-- `execute_blueprint` (executor.py lines 394-421). -/
def executeBlueprint (bp : Blueprint) (mode : ExecutionMode)
    (handler : Option Handler) : Except PyExn ExecutionState :=
  execute bp mode handler

end BP

namespace BP

/-! ## Generic list lemmas used by several claims -/

theorem mapM_ok_mem {α β : Type} (f : α → Except PyExn β) :
    ∀ (l : List α) (ys : List β), l.mapM f = .ok ys →
      ∀ y ∈ ys, ∃ x ∈ l, f x = .ok y := by
  intro l
  induction l with
  | nil =>
    intro ys h y hy
    simp only [List.mapM_nil, pure, Except.pure] at h
    cases h
    simp at hy
  | cons a l ih =>
    intro ys h y hy
    rw [List.mapM_cons] at h
    cases ha : f a with
    | error e => rw [ha] at h; simp [Bind.bind, Except.bind] at h
    | ok b =>
      rw [ha] at h
      simp only [Bind.bind, Except.bind] at h
      cases hl : l.mapM f with
      | error e => rw [hl] at h; simp [pure, Except.pure] at h
      | ok bs =>
        rw [hl] at h
        simp only [pure, Except.pure, Except.ok.injEq] at h
        subst h
        rcases List.mem_cons.mp hy with rfl | hy'
        · exact ⟨a, List.mem_cons_self a l, ha⟩
        · obtain ⟨x, hx, hfx⟩ := ih bs hl y hy'
          exact ⟨x, List.mem_cons_of_mem a hx, hfx⟩

theorem computeStatus_tasks (t : Tier) : (computeStatus t).tasks = t.tasks := by
  unfold computeStatus
  split <;> [rfl; (dsimp only []; split <;> [rfl; (split <;> [rfl; (split <;> rfl)])])]

theorem mkTier_tasks (id name : String) (tasks : List Task) (goal : Option String)
    (st : TierStatus) : (mkTier id name tasks goal st).tasks = tasks :=
  computeStatus_tasks _

/-! ## Claim fixtures -/

/-- A plain well-formed task with no interface (the `interface` field is
optional in the data model, defaulting to `None`). -/
def taskNoIfaceA : Task :=
  { task_id := "A", name := "A", test_command := "t", rollback := "r",
    acceptance_criteria := ["done"] }

/-- A task depending on `A`, itself also without an interface. -/
def taskNoIfaceB : Task :=
  { task_id := "B", name := "B", dependencies := ["A"], test_command := "t",
    rollback := "r", acceptance_criteria := ["done"] }

/-- A Blueprint whose tasks have resolvable dependencies but absent
(`None`) interfaces. -/
def bpNoIface : Blueprint :=
  { metadata := { title := "BP" },
    tiers := [mkTier "T1" "Tier 1" [taskNoIfaceA, taskNoIfaceB] none .not_started] }

/-! ## C1 — DRY_RUN execution

`BlueprintExecutor.execute` never reaches the DRY_RUN branch: the
run-start log record evaluates `len(self.blueprint.tasks)` first, and
the `Blueprint` model has no attribute `tasks`. -/

/-- C1: for every Blueprint, every mode and every handler, `execute`
raises `AttributeError` at the run-start logging call (executor.py line
151 reads `self.blueprint.tasks`, a field the `Blueprint` model does not
define) before the DRY_RUN branch is reached — so a DRY_RUN call never
returns the finalized empty-result `ExecutionState` the claim (and spec
section 4.4) describes. -/
theorem execute_always_raises_attribute_error
    (bp : Blueprint) (mode : ExecutionMode) (handler : Option Handler) :
    execute bp mode handler =
      .error (.attributeError "Blueprint object has no attribute tasks") := rfl

/-! ## C6 — validate totality

`_check_interface_compatibility` dereferences `dep_task.interface.output`
and `task.interface.input` without a `None` guard (validator.py lines
212-213), so `validate` raises `AttributeError` on a Blueprint with a
resolvable dependency edge whose tasks carry no interface. -/

/-- C6: `validate` raises `AttributeError` on `bpNoIface` — a Blueprint
that is well-formed for the data model (`interface` is optional) — so
`validate` is not total, contradicting the claim that it returns
normally on Blueprints whose tasks have absent interfaces. -/
theorem validate_raises_on_missing_interface :
    validate bpNoIface =
      .error (.attributeError "NoneType object has no attribute output") := by
  rfl

/-! ## C10 — parsed tasks always carry an interface -/

/-- C10: every task produced by the Markdown tier assembly or by the
JSON path carries a non-`None` interface: `_parse_task` always
constructs an `Interface`, with empty-string defaults when the document
supplies no interface data. -/
theorem parsed_tasks_have_interface
    (md : Metadata) (vision : Option String) (metrics : List SuccessMetric)
    (tbs : List TierBlock) (br : BlueprintRecord) (bp : Blueprint) :
    (∀ t ∈ allTasks (parseMarkdown md vision metrics tbs),
        ∃ i, t.iface = some i) ∧
    (parseDict br = .ok bp → ∀ t ∈ allTasks bp, ∃ i, t.iface = some i) := by
  constructor
  · intro t ht
    simp only [parseMarkdown, allTasks, List.mem_flatten, List.mem_map] at ht
    obtain ⟨l, ⟨tier, ⟨tb, htb, rfl⟩, rfl⟩, hmem⟩ := ht
    simp only [parseMarkdownTier] at hmem
    have htasks : ∀ ts : List Task, ∀ x ∈ ts,
        (∀ y ∈ ts, ∃ r : TaskRecord, y = parseTask r) → ∃ i, x.iface = some i := by
      intro ts x hx hall
      obtain ⟨r, rfl⟩ := hall x hx
      exact ⟨_, rfl⟩
    set ts := (tb.blocks.filter (fun r => r.task_id.isSome)).map parseTask with hts
    have hall : ∀ y ∈ ts, ∃ r : TaskRecord, y = parseTask r := by
      intro y hy
      rw [hts] at hy
      obtain ⟨r, _, rfl⟩ := List.mem_map.mp hy
      exact ⟨r, rfl⟩
    have hmem' : t ∈ ts := by
      split at hmem <;> [skip; split at hmem] <;>
        simpa [mkTier_tasks] using hmem
    exact htasks ts t hmem' hall
  · intro h t ht
    simp only [parseDict, Bind.bind, Except.bind] at h
    cases htiers : br.tiers.mapM parseDictTier with
    | error e => rw [htiers] at h; cases h
    | ok tiers =>
      rw [htiers] at h
      simp only [pure, Except.pure, Except.ok.injEq] at h
      subst h
      simp only [allTasks, List.mem_flatten, List.mem_map] at ht
      obtain ⟨l, ⟨tier, htier, rfl⟩, hmem⟩ := ht
      obtain ⟨tr, _, hok⟩ := mapM_ok_mem parseDictTier br.tiers tiers htiers tier htier
      simp only [parseDictTier, Bind.bind, Except.bind] at hok
      cases hst : tierStatusOf (tr.status.getD "not_started") with
      | error e => rw [hst] at hok; cases hok
      | ok st =>
        rw [hst] at hok
        simp only [pure, Except.pure, Except.ok.injEq] at hok
        subst hok
        rw [mkTier_tasks] at hmem
        obtain ⟨r, _, rfl⟩ := List.mem_map.mp hmem
        exact ⟨_, rfl⟩

/-- Witness for C10 at a concrete record: a Markdown block with no
interface key yields the empty-string interface. -/
theorem parsed_tasks_have_interface_witness :
    ∃ i, (parseTask { task_id := some "T1", name := some "n" }).iface = some i := by
  have h := (parsed_tasks_have_interface { title := "d" } none []
    [{ num := 1, name := "Tier", blocks := [{ task_id := some "T1", name := some "n" }] }]
    {} { metadata := { title := "d" } }).1
  exact h (parseTask { task_id := some "T1", name := some "n" }) (by decide)

end BP

namespace BP

/-! ## C9 — parser status mapping

`_parse_task` maps a status value by scanning its fixed table for the
first key occurring as a *substring* of the raw value — case-sensitive,
with no lower-casing and no space normalization.  The claim's
"lower-cased with spaces replaced by underscores" behaviour lives only
in `Task.parse_status` (models.py), which parser-produced tasks never
exercise (the parser hands the model an already-resolved enum value). -/

/-- `sub` occurs as a contiguous substring of `s` (specification-side
predicate for Python `sub in s`). -/
def SubstrOf (sub s : String) : Prop :=
  ∃ l r : List Char, s.toList = l ++ sub.toList ++ r

theorem hasInfixL_iff (needle : List Char) :
    ∀ hay : List Char, hasInfixL needle hay = true ↔ ∃ l r, hay = l ++ needle ++ r := by
  intro hay
  induction hay with
  | nil =>
    simp only [hasInfixL, List.isPrefixOf_iff_prefix, List.prefix_nil]
    constructor
    · rintro rfl; exact ⟨[], [], rfl⟩
    · rintro ⟨l, r, h⟩
      rcases List.append_eq_nil.mp h.symm with ⟨h1, h2⟩
      exact (List.append_eq_nil.mp h1).2
  | cons c rest ih =>
    simp only [hasInfixL, Bool.or_eq_true, List.isPrefixOf_iff_prefix, ih]
    constructor
    · rintro (⟨t, ht⟩ | ⟨l, r, rfl⟩)
      · exact ⟨[], t, ht.symm⟩
      · exact ⟨c :: l, r, rfl⟩
    · rintro ⟨l, r, h⟩
      cases l with
      | nil => exact Or.inl ⟨r, by simpa using h.symm⟩
      | cons x l' =>
        simp only [List.cons_append, List.cons.injEq] at h
        exact Or.inr ⟨l', r, h.2⟩

theorem substrOf_iff (s sub : String) : SubstrOf sub s ↔ strContains s sub = true := by
  rw [strContains, hasInfixL_iff]
  exact Iff.rfl |>.symm |>.trans (Iff.symm Iff.rfl) |>.symm |>.trans
    ⟨fun ⟨l, r, h⟩ => ⟨l, r, h⟩, fun ⟨l, r, h⟩ => ⟨l, r, h⟩⟩

/-- `find?` returns the first element satisfying the predicate. -/
theorem find?_first {α : Type} (p : α → Bool) :
    ∀ (l : List α) (i : Nat) (kv : α), l[i]? = some kv → p kv = true →
      (∀ kv' ∈ l.take i, p kv' = false) →
      l.find? p = some kv := by
  intro l
  induction l with
  | nil => intro i kv h; simp at h
  | cons a t ih =>
    intro i kv hget hp hfirst
    cases i with
    | zero =>
      simp only [List.getElem?_cons_zero, Option.some.injEq] at hget
      subst hget
      exact List.find?_cons_of_pos t hp
    | succ i' =>
      have ha : p a = false := hfirst a (by simp [List.take_succ_cons])
      rw [List.find?_cons_of_neg t (by simp [ha])]
      exact ih i' kv (by simpa using hget) hp
        (fun kv' h => hfirst kv' (by simp [List.take_succ_cons]; right; exact h))

/-- C9 counterexample fixture: the status value `"Complete"`. -/
def recC9 : TaskRecord := { status := some "Complete" }

/-- The status mapping the claim describes (the `Task.parse_status`
normalization with a not-started default): glyphs positionally, else
lower-case, replace spaces by underscores, match the canonical names,
else not-started. -/
def specStatusClaim (s : String) : TaskStatus :=
  (modelParseStatus s).getD .not_started

/-- C9 counterexample: on the parsed status value `"Complete"` the
parser yields `not_started` (its substring scan is case-sensitive and
never normalizes), while the claim's lower-casing mapping mandates
`complete`. -/
theorem parse_status_counterexample :
    (parseTask recC9).status = .not_started ∧
    specStatusClaim "Complete" = .complete ∧
    (parseTask recC9).status ≠ specStatusClaim "Complete" := by
  decide

/-- C9 amended: for every parsed task record, the parser scans the fixed
table (five glyphs, then the five canonical names, in order) and yields
the value of the first key occurring as a substring of the raw status
value — case-sensitively, with no normalization — and `not_started`
when no key occurs. -/
theorem parse_status_substring_table (r : TaskRecord) :
    ((∀ kv ∈ statusTable, ¬ SubstrOf kv.1 (r.status.getD "not_started")) →
      (parseTask r).status = .not_started) ∧
    (∀ (i : Nat) (kv : String × TaskStatus), statusTable[i]? = some kv →
      SubstrOf kv.1 (r.status.getD "not_started") →
      (∀ kv' ∈ statusTable.take i, ¬ SubstrOf kv'.1 (r.status.getD "not_started")) →
      (parseTask r).status = kv.2) := by
  have hstat : (parseTask r).status = parseTaskStatus (r.status.getD "not_started") := rfl
  constructor
  · intro hnone
    rw [hstat]
    unfold parseTaskStatus
    rw [List.find?_eq_none.mpr]
    intro kv hkv
    have := hnone kv hkv
    rw [substrOf_iff] at this
    simpa using this
  · intro i kv hget hsub hfirst
    rw [hstat]
    unfold parseTaskStatus
    rw [find?_first (fun kv => strContains (r.status.getD "not_started") kv.1)
      statusTable i kv hget ((substrOf_iff _ _).mp hsub)
      (fun kv' hkv' => by
        have := hfirst kv' hkv'
        rw [substrOf_iff] at this
        simpa using this)]

/-- Witness for C9's amended theorem: `"state is complete now"` matches
the table at index 7 (`"complete"`), no earlier key occurring. -/
theorem parse_status_substring_table_witness :
    (parseTask { status := some "state is complete now" }).status = .complete := by
  have h := (parse_status_substring_table { status := some "state is complete now" }).2
    7 ("complete", .complete) (by decide)
  refine h ?_ ?_
  · exact (substrOf_iff _ _).mpr (by decide)
  · simp only [substrOf_iff]
    decide

/-! ## C8 — derived tier status

`Tier.compute_status` ignores in-progress children: it derives
in-progress only from *completed* children, derives blocked whenever any
child is blocked and none is complete (in-progress children
notwithstanding), and leaves the constructed status untouched for an
empty task list. -/

/-- The derivation the claim describes: complete iff all children
complete (vacuously on an empty list), in-progress iff any child
complete or in-progress, blocked iff any child blocked and none
in-progress or complete, else not-started. -/
def specTierStatusClaim (tasks : List Task) : TierStatus :=
  if tasks.all (fun t => t.status == .complete) then .complete
  else if tasks.any (fun t => t.status == .complete || t.status == .in_progress) then
    .in_progress
  else if tasks.any (fun t => t.status == .blocked) then .blocked
  else .not_started

/-- C8 counterexample fixture: a lone in-progress child. -/
def taskInProg : Task := { task_id := "X", name := "X", status := .in_progress }

/-- C8 counterexample: constructing a Tier from a single in-progress
task yields status `not_started` (the model validator only counts
*completed* children), while the claim's derivation mandates
`in_progress`. -/
theorem tier_status_counterexample :
    (mkTier "T1" "Tier" [taskInProg] none .not_started).status = .not_started ∧
    specTierStatusClaim [taskInProg] = .in_progress ∧
    (mkTier "T1" "Tier" [taskInProg] none .not_started).status ≠
      specTierStatusClaim [taskInProg] := by
  decide

/-- C8 amended: on construction `compute_status` derives the tier status
as: unchanged for an empty task list; complete when every child is
complete; in-progress when some but not all children are complete;
blocked when no child is complete and some child is blocked; otherwise
the constructed status is left unchanged (in-progress children are not
consulted). -/
theorem mkTier_status_characterization (id name : String) (tasks : List Task)
    (goal : Option String) (st0 : TierStatus) :
    (tasks = [] → (mkTier id name tasks goal st0).status = st0) ∧
    (tasks ≠ [] → tasks.all (fun t => t.status == .complete) →
      (mkTier id name tasks goal st0).status = .complete) ∧
    (¬ tasks.all (fun t => t.status == .complete) →
      tasks.any (fun t => t.status == .complete) →
      (mkTier id name tasks goal st0).status = .in_progress) ∧
    (tasks ≠ [] → ¬ tasks.any (fun t => t.status == .complete) →
      tasks.any (fun t => t.status == .blocked) →
      (mkTier id name tasks goal st0).status = .blocked) ∧
    (tasks ≠ [] → ¬ tasks.any (fun t => t.status == .complete) →
      ¬ tasks.any (fun t => t.status == .blocked) →
      (mkTier id name tasks goal st0).status = st0) := by
  unfold mkTier computeStatus Tier.completedCount
  have hcount_len : tasks.countP (fun x => x.status == .complete) = tasks.length ↔
      tasks.all (fun t => t.status == .complete) = true := by
    rw [List.all_eq_true, List.countP_eq_length]
  have hcount_pos : 0 < tasks.countP (fun x => x.status == .complete) ↔
      tasks.any (fun t => t.status == .complete) = true := by
    rw [List.any_eq_true, List.countP_pos_iff]
  refine ⟨?_, ?_, ?_, ?_, ?_⟩
  · intro h; simp [h]
  · intro hne hall
    have := hcount_len.mpr hall
    simp [hne, this]
  · intro hnall hany
    have hne : tasks ≠ [] := by
      rintro rfl; exact hnall (by decide)
    have hlt : tasks.countP (fun x => x.status == .complete) ≠ tasks.length := by
      intro h; exact hnall (hcount_len.mp h)
    have hpos := hcount_pos.mpr hany
    simp only [if_neg hne]
    rw [if_neg hlt, if_pos hpos]
  · intro hne hnany hblk
    have hzero : ¬ 0 < tasks.countP (fun x => x.status == .complete) := by
      intro h; exact hnany (hcount_pos.mp h)
    have hlt : tasks.countP (fun x => x.status == .complete) ≠ tasks.length := by
      intro h
      have hall := hcount_len.mp h
      rw [List.all_eq_true] at hall
      obtain ⟨t, ht⟩ := List.exists_mem_of_ne_nil tasks hne
      exact hzero (hcount_pos.mpr (List.any_eq_true.mpr ⟨t, ht, hall t ht⟩))
    simp only [if_neg hne]
    rw [if_neg hlt, if_neg hzero, if_pos hblk]
  · intro hne hnany hnblk
    have hzero : ¬ 0 < tasks.countP (fun x => x.status == .complete) := by
      intro h; exact hnany (hcount_pos.mp h)
    have hlt : tasks.countP (fun x => x.status == .complete) ≠ tasks.length := by
      intro h
      have hall := hcount_len.mp h
      rw [List.all_eq_true] at hall
      obtain ⟨t, ht⟩ := List.exists_mem_of_ne_nil tasks hne
      exact hzero (hcount_pos.mpr (List.any_eq_true.mpr ⟨t, ht, hall t ht⟩))
    have hblk' : tasks.any (fun t => t.status == .blocked) = false :=
      Bool.eq_false_iff.mpr (fun h => hnblk h)
    simp only [if_neg hne]
    rw [if_neg hlt, if_neg hzero, hblk']
    simp

/-- Witness for C8's amended theorem: a tier with one blocked child gets
status blocked. -/
theorem mkTier_status_characterization_witness :
    (mkTier "T1" "Tier" [{ task_id := "X", name := "X", status := .blocked }]
      none .not_started).status = .blocked := by
  exact (mkTier_status_characterization "T1" "Tier"
    [{ task_id := "X", name := "X", status := .blocked }] none .not_started).2.2.2.1
    (by decide) (by decide) (by decide)

end BP

namespace BP

/-! ## C5 — scheduler termination and the blocked fallback -/

theorem readyOf_subset (tasks : List Task) (s : SchedState) :
    ∀ x ∈ readyOf tasks s, x ∈ s.remaining := by
  intro x hx
  exact (List.mem_filter.mp hx).1

theorem schedStep_remaining_lt (tasks : List Task) (s : SchedState)
    (h : readyOf tasks s ≠ []) :
    (schedStep tasks s).remaining.length < s.remaining.length := by
  have : (schedStep tasks s).remaining =
      s.remaining.filter (fun id => decide (id ∉ readyOf tasks s)) := rfl
  rw [this]
  rw [List.length_filter_lt_length_iff_exists]
  obtain ⟨x, hx⟩ := List.exists_mem_of_ne_nil _ h
  exact ⟨x, readyOf_subset tasks s x hx, by simpa using hx⟩

/-- The leveling loop's value does not depend on the fuel, as long as the
fuel exceeds the number of ids still to place: the loop always reaches
one of its two exits. -/
theorem levelLoop_fuel_irrelevant :
    ∀ (n : Nat) (tasks : List Task) (s : SchedState) (f g : Nat),
      s.remaining.length ≤ n → s.remaining.length < f → s.remaining.length < g →
      levelLoop tasks f s = levelLoop tasks g s := by
  intro n
  induction n with
  | zero =>
    intro tasks s f g hn hf hg
    obtain ⟨f', rfl⟩ := Nat.exists_eq_succ_of_ne_zero (Nat.pos_iff_ne_zero.mp
      (Nat.lt_of_le_of_lt (Nat.zero_le _) hf))
    obtain ⟨g', rfl⟩ := Nat.exists_eq_succ_of_ne_zero (Nat.pos_iff_ne_zero.mp
      (Nat.lt_of_le_of_lt (Nat.zero_le _) hg))
    have hrem : s.remaining = [] := List.length_eq_zero.mp (Nat.le_zero.mp hn)
    simp [levelLoop, hrem]
  | succ n ih =>
    intro tasks s f g hn hf hg
    obtain ⟨f', rfl⟩ := Nat.exists_eq_succ_of_ne_zero (Nat.pos_iff_ne_zero.mp
      (Nat.lt_of_le_of_lt (Nat.zero_le _) hf))
    obtain ⟨g', rfl⟩ := Nat.exists_eq_succ_of_ne_zero (Nat.pos_iff_ne_zero.mp
      (Nat.lt_of_le_of_lt (Nat.zero_le _) hg))
    by_cases hrem : s.remaining = []
    · simp [levelLoop, hrem]
    · by_cases hready : readyOf tasks s = []
      · simp [levelLoop, hrem, hready]
      · have hlt := schedStep_remaining_lt tasks s hready
        simp only [levelLoop, if_neg hrem, if_neg hready]
        exact ih tasks (schedStep tasks s) f' g'
          (by omega) (by omega) (by omega)

/-- C5: the leveling loop of `create_execution_plan` never loops: with
any fuel exceeding the number of unplaced ids the result is the same
(the canonical call uses `|remaining| + 1`), and whenever an iteration
collects no ready tasks while unsatisfied tasks remain, every remaining
task id is appended to the blocked list and leveling stops at once. -/
theorem scheduler_terminates_and_blocks (tasks : List Task) (s : SchedState) (f g : Nat)
    (hf : s.remaining.length < f) (hg : s.remaining.length < g) :
    (levelLoop tasks f s = levelLoop tasks g s) ∧
    (s.remaining ≠ [] → readyOf tasks s = [] →
      levelLoop tasks f s = { s with blocked := s.blocked ++ s.remaining } ∧
      ∀ id ∈ s.remaining, id ∈ (levelLoop tasks f s).blocked) := by
  constructor
  · exact levelLoop_fuel_irrelevant s.remaining.length tasks s f g le_rfl hf hg
  · intro hrem hready
    obtain ⟨f', rfl⟩ := Nat.exists_eq_succ_of_ne_zero (Nat.pos_iff_ne_zero.mp
      (Nat.lt_of_le_of_lt (Nat.zero_le _) hf))
    have hstep : levelLoop tasks (f'+1) s = { s with blocked := s.blocked ++ s.remaining } := by
      simp [levelLoop, hrem, hready]
    refine ⟨hstep, ?_⟩
    intro id hid
    rw [hstep]
    exact List.mem_append_right _ hid

/-- C5 witness fixture: a two-task dependency cycle. -/
def taskCycT1 : Task :=
  { task_id := "T1", name := "T1", dependencies := ["T2"], test_command := "t",
    iface := some { input := "", output := "" } }

/-- Second half of the cycle. -/
def taskCycT2 : Task :=
  { task_id := "T2", name := "T2", dependencies := ["T1"], test_command := "t",
    iface := some { input := "", output := "" } }

/-- A Blueprint whose two tasks depend on each other. -/
def bpCycle : Blueprint :=
  { metadata := { title := "Cyclic" },
    tiers := [mkTier "T1" "Tier 1" [taskCycT1, taskCycT2] none .not_started] }

/-- Witness for C5 on the cyclic Blueprint: the first iteration collects
nothing, both ids land in the blocked list, and the loop value is
fuel-independent. -/
theorem scheduler_terminates_and_blocks_witness :
    levelLoop (allTasks bpCycle) 3 (initialSched (allTasks bpCycle)) =
      levelLoop (allTasks bpCycle) 17 (initialSched (allTasks bpCycle)) ∧
    "T1" ∈ (levelLoop (allTasks bpCycle) 3 (initialSched (allTasks bpCycle))).blocked := by
  have h := scheduler_terminates_and_blocks (allTasks bpCycle)
    (initialSched (allTasks bpCycle)) 3 17 (by decide) (by decide)
  refine ⟨h.1, ?_⟩
  exact (h.2 (by decide) (by decide)).2 "T1" (by decide)

end BP

namespace BP

/-! ## Results-dict lemmas shared by the executor claims -/

theorem find?_replace_ne (k k' : String) (v : TaskResult)
    (h : k' ≠ k) : ∀ m : List (String × TaskResult),
    (m.map (fun p => if p.1 == k then (k, v) else p)).find? (fun p => p.1 == k') =
      m.find? (fun p => p.1 == k') := by
  intro m
  induction m with
  | nil => rfl
  | cons q t ih =>
    by_cases hq : q.1 == k
    · have h1 : ((k, v).1 == k') = false := by
        simp only [beq_eq_false_iff_ne]
        exact fun hkk => h hkk.symm
      have h2 : (q.1 == k') = false := by
        simp only [beq_eq_false_iff_ne]
        rw [beq_iff_eq] at hq
        rw [hq]
        exact fun hkk => h hkk.symm
      simp only [List.map_cons, if_pos hq]
      rw [List.find?_cons_of_neg _ (by simp [h1]), List.find?_cons_of_neg _ (by simp [h2])]
      exact ih
    · simp only [List.map_cons, if_neg hq]
      by_cases hq' : q.1 == k'
      · rw [List.find?_cons_of_pos _ (by simpa using hq'),
          List.find?_cons_of_pos _ (by simpa using hq')]
      · rw [List.find?_cons_of_neg _ (by simpa using hq'),
          List.find?_cons_of_neg _ (by simpa using hq')]
        exact ih

theorem find?_replace_self (k : String) (v : TaskResult) :
    ∀ m : List (String × TaskResult), m.any (fun p => p.1 == k) →
    (m.map (fun p => if p.1 == k then (k, v) else p)).find? (fun p => p.1 == k) =
      some (k, v) := by
  intro m
  induction m with
  | nil => intro h; cases h
  | cons q t ih =>
    intro hany
    by_cases hq : q.1 == k
    · simp only [List.map_cons, if_pos hq]
      rw [List.find?_cons_of_pos _ (by simp)]
    · simp only [List.map_cons, if_neg hq]
      rw [List.find?_cons_of_neg _ (by simpa using hq)]
      apply ih
      simp only [List.any_cons, hq, Bool.false_or] at hany
      exact hany

theorem dictFind_insert_self (m : List (String × TaskResult)) (k : String) (v : TaskResult) :
    dictFind (dictInsert m k v) k = some v := by
  unfold dictInsert dictFind
  by_cases h : m.any (fun p => p.1 == k)
  · rw [if_pos h, find?_replace_self k v m h]
    rfl
  · rw [if_neg h, List.find?_append]
    have hnone : m.find? (fun p => p.1 == k) = none := by
      rw [List.find?_eq_none]
      intro p hp hpk
      exact absurd (List.any_eq_true.mpr ⟨p, hp, hpk⟩) h
    rw [hnone]
    simp [List.find?]

theorem dictFind_insert_ne (m : List (String × TaskResult)) (k k' : String) (v : TaskResult)
    (h : k' ≠ k) : dictFind (dictInsert m k v) k' = dictFind m k' := by
  unfold dictInsert dictFind
  by_cases hm : m.any (fun p => p.1 == k)
  · rw [if_pos hm, find?_replace_ne k k' v h m]
  · rw [if_neg hm, List.find?_append]
    cases hf : m.find? (fun p => p.1 == k') with
    | some p => rfl
    | none =>
      have hkk : ((k, v).1 == k') = false := by
        simp only [beq_eq_false_iff_ne]
        exact fun hkk => h hkk.symm
      simp [List.find?, hkk]

/-- The results written by a fold of `dictInsert`s land under their own
keys: a key outside the written pairs is preserved. -/
theorem foldl_dictInsert_not_mem (k : String) :
    ∀ (l : List (String × TaskResult)) (m : List (String × TaskResult)),
      (∀ p ∈ l, p.1 ≠ k) →
      dictFind (l.foldl (fun acc p => dictInsert acc p.1 p.2) m) k = dictFind m k := by
  intro l
  induction l with
  | nil => intro m _; rfl
  | cons q t ih =>
    intro m hk
    simp only [List.foldl_cons]
    rw [ih _ (fun p hp => hk p (List.mem_cons_of_mem q hp)),
      dictFind_insert_ne _ _ _ _ (fun h => hk q (List.mem_cons_self q t) h.symm)]

/-- A key whose every written pair carries the same value ends up mapped
to that value. -/
theorem foldl_dictInsert_mem (k : String) (v : TaskResult) :
    ∀ (l : List (String × TaskResult)) (m : List (String × TaskResult)),
      (∀ p ∈ l, p.1 = k → p.2 = v) → (∃ p ∈ l, p.1 = k) →
      dictFind (l.foldl (fun acc p => dictInsert acc p.1 p.2) m) k = some v := by
  intro l
  induction l with
  | nil => rintro m _ ⟨p, hp, _⟩; cases hp
  | cons q t ih =>
    intro m hval hmem
    simp only [List.foldl_cons]
    by_cases ht : ∃ p ∈ t, p.1 = k
    · exact ih _ (fun p hp => hval p (List.mem_cons_of_mem q hp)) ht
    · obtain ⟨p, hp, hpk⟩ := hmem
      rcases List.mem_cons.mp hp with rfl | hp'
      · rw [foldl_dictInsert_not_mem k t _ (fun p' hp' hk => ht ⟨p', hp', hk⟩)]
        rw [hpk, hval p (List.mem_cons_self p t) hpk]
        exact dictFind_insert_self m k v
      · exact absurd ⟨p, hp', hpk⟩ ht

end BP

namespace BP

/-! ## C2 — handler-failure containment

`_execute_task` wraps the injected handler in no try/except; on the
sequential path (`_execute_sequential`) a raised handler exception
therefore propagates out of the executor with no `TaskResult` recorded
for the raising task.  Only the PARALLEL gather path
(`_execute_tasks_async` with `return_exceptions=True`) captures the
exception per task, converts it to a failed result carrying `str(e)`,
and leaves every sibling's own outcome untouched. -/

/-- C2 fixture: a plain automatic task. -/
def taskTA : Task := { task_id := "TA", name := "TA" }

/-- C2 fixture: a sibling task. -/
def taskTB : Task := { task_id := "TB", name := "TB" }

/-- C2 fixture: a one-task Blueprint. -/
def bpSeqOne : Blueprint :=
  { metadata := { title := "S" },
    tiers := [mkTier "T1" "Tier 1" [taskTA] none .not_started] }

/-- C2 fixture: a two-task Blueprint. -/
def bpPair : Blueprint :=
  { metadata := { title := "P" },
    tiers := [mkTier "T1" "Tier 1" [taskTA, taskTB] none .not_started] }

/-- C2 fixture: a handler that raises on every task. -/
def throwingHandler : Handler := fun _ => .error "boom"

/-- C2 fixture: a handler that raises on `TA` and succeeds elsewhere. -/
def mixedHandler : Handler := fun t =>
  if t.task_id == "TA" then .error "boom"
  else .ok { task_id := t.task_id, success := true }

theorem getTask_id (bp : Blueprint) (id : String) (t : Task)
    (h : getTask bp id = some t) : t.task_id = id := by
  have := List.find?_some h
  simpa using this

/-- C2 counterexample: in SEQUENTIAL mode a handler exception is *not*
caught at the scope of the task: it propagates out of
`_execute_sequential` (and hence out of the group loop) and no failed
`TaskResult` is recorded for the raising task. -/
theorem handler_exception_escapes_sequential :
    executeSequential bpSeqOne (some throwingHandler) ["TA"] {} = ({}, some "boom") ∧
    runPlanGroups bpSeqOne (some throwingHandler) .sequential
      [{ group_id := "G1", tasks := ["TA"] }] {} = ({}, some "boom") := by
  exact ⟨rfl, rfl⟩

theorem zip_self_map {α β : Type} (g : α → β) :
    ∀ l : List α, l.zip (l.map g) = l.map (fun a => (a, g a)) := by
  intro l
  induction l with
  | nil => rfl
  | cons a t ih => simp [ih]

/-- C2 amended: on the PARALLEL gather path, every task of a group ends
up with its own captured outcome in the result map — a handler exception
on one task is recorded as that task's failed `TaskResult` carrying the
handler's error text and never disturbs a sibling's entry — and keys
outside the group are preserved. -/
theorem parallel_failure_contained (bp : Blueprint) (handler : Handler) (ids : List String)
    (st : RunState) (id : String) (t : Task)
    (hid : id ∈ ids) (hget : getTask bp id = some t) :
    (dictFind (executeParallel bp (some handler) ids st).results id =
      some (capturedOutcome (some handler) t).1) ∧
    (∀ e, t.human_required = none → handler t = .error e →
      (capturedOutcome (some handler) t).1 =
        { task_id := t.task_id, success := false, start_time := 0, end_time := some 0,
          error := some e }) ∧
    (∀ k, k ∉ ids → dictFind (executeParallel bp (some handler) ids st).results k =
      dictFind st.results k) := by
  have hne : ids ≠ [] := List.ne_nil_of_mem hid
  have htmem : t ∈ ids.filterMap (getTask bp) := List.mem_filterMap.mpr ⟨id, hid, hget⟩
  have htne : ids.filterMap (getTask bp) ≠ [] := List.ne_nil_of_mem htmem
  have hkeys : ∀ t' ∈ ids.filterMap (getTask bp), t'.task_id ∈ ids := by
    intro t' ht'
    obtain ⟨j, hj, hgj⟩ := List.mem_filterMap.mp ht'
    rw [getTask_id bp j t' hgj]
    exact hj
  have hfold : (executeParallel bp (some handler) ids st).results =
      ((ids.filterMap (getTask bp)).map
        (fun t' => (t'.task_id, (capturedOutcome (some handler) t').1))).foldl
        (fun acc p => dictInsert acc p.1 p.2) st.results := by
    unfold executeParallel
    rw [if_neg hne, if_neg htne]
    simp only [executeTasksAsync]
    rw [zip_self_map (fun t' => (capturedOutcome (some handler) t').1)
      (ids.filterMap (getTask bp))]
    rw [List.foldl_map, List.foldl_map]
  refine ⟨?_, ?_, ?_⟩
  · rw [hfold]
    apply foldl_dictInsert_mem
    · intro p hp hpk
      obtain ⟨t', ht', rfl⟩ := List.mem_map.mp hp
      obtain ⟨j, hj, hgj⟩ := List.mem_filterMap.mp ht'
      simp only at hpk ⊢
      have : j = id := by rw [← getTask_id bp j t' hgj]; exact hpk
      subst this
      rw [hget] at hgj
      cases hgj
      rfl
    · exact ⟨(t.task_id, (capturedOutcome (some handler) t).1),
        List.mem_map.mpr ⟨t, htmem, rfl⟩, getTask_id bp id t hget⟩
  · intro e hhuman herr
    simp [capturedOutcome, executeTask, hhuman, herr, Except.map]
  · intro k hk
    rw [hfold]
    apply foldl_dictInsert_not_mem
    intro p hp
    obtain ⟨t', ht', rfl⟩ := List.mem_map.mp hp
    simp only
    intro hEq
    exact hk (hEq ▸ hkeys t' ht')

/-- Witness for C2's amended theorem: in a two-task parallel group where
the handler raises on `TA` only, `TB` still receives its own successful
result and `TA` a failed result carrying the error text. -/
theorem parallel_failure_contained_witness :
    dictFind (executeParallel bpPair (some mixedHandler) ["TA", "TB"] {}).results "TB" =
      some { task_id := "TB", success := true } ∧
    dictFind (executeParallel bpPair (some mixedHandler) ["TA", "TB"] {}).results "TA" =
      some { task_id := "TA", success := false, start_time := 0, end_time := some 0,
             error := some "boom" } := by
  have hB := (parallel_failure_contained bpPair mixedHandler ["TA", "TB"] {} "TB" taskTB
    (by decide) (by decide)).1
  have hA := (parallel_failure_contained bpPair mixedHandler ["TA", "TB"] {} "TA" taskTA
    (by decide) (by decide)).1
  exact ⟨hB.trans (congrArg some (by decide)), hA.trans (congrArg some (by decide))⟩

end BP

namespace BP

/-! ## Scheduler group invariants (shared by C7 and C4) -/

theorem foldl_dedup_nodup : ∀ (l acc : List String), acc.Nodup →
    (l.foldl (fun acc a => if a ∈ acc then acc else acc ++ [a]) acc).Nodup := by
  intro l
  induction l with
  | nil => intro acc h; exact h
  | cons a t ih =>
    intro acc h
    simp only [List.foldl_cons]
    by_cases ha : a ∈ acc
    · rw [if_pos ha]; exact ih acc h
    · rw [if_neg ha]
      refine ih _ ((List.nodup_append).mpr ⟨h, List.nodup_singleton a, ?_⟩)
      intro y hy hya
      rw [List.mem_singleton] at hya
      subst hya
      exact ha hy

theorem firstDedup_nodup (l : List String) : (firstDedup l).Nodup :=
  foldl_dedup_nodup l [] List.nodup_nil

theorem foldl_dedup_mem : ∀ (l acc : List String) (x : String),
    x ∈ l.foldl (fun acc a => if a ∈ acc then acc else acc ++ [a]) acc ↔
      x ∈ acc ∨ x ∈ l := by
  intro l
  induction l with
  | nil => intro acc x; simp
  | cons a t ih =>
    intro acc x
    simp only [List.foldl_cons]
    by_cases ha : a ∈ acc
    · rw [if_pos ha, ih]
      constructor
      · rintro (h | h)
        · exact Or.inl h
        · exact Or.inr (List.mem_cons_of_mem a h)
      · rintro (h | h)
        · exact Or.inl h
        · rcases List.mem_cons.mp h with rfl | h'
          · exact Or.inl ha
          · exact Or.inr h'
    · rw [if_neg ha, ih]
      simp only [List.mem_append, List.mem_singleton, List.mem_cons]
      tauto

theorem mem_firstDedup (l : List String) (x : String) :
    x ∈ firstDedup l ↔ x ∈ l := by
  rw [firstDedup, foldl_dedup_mem]
  simp

theorem readyOf_nodup (tasks : List Task) (s : SchedState) (h : s.remaining.Nodup) :
    (readyOf tasks s).Nodup :=
  List.Nodup.filter _ h

theorem pySorted_perm (l : List String) : (pySorted l).Perm l :=
  List.perm_insertionSort _ l

theorem mem_pySorted (l : List String) (x : String) : x ∈ pySorted l ↔ x ∈ l :=
  (pySorted_perm l).mem_iff

/-- The loop invariant shared by the executor and ordering claims:
`remaining` ids are distinct existing ids, the groups built so far hold
distinct existing ids, are pairwise disjoint, and never overlap
`remaining`. -/
structure SchedInv (taskIds : List String) (s : SchedState) : Prop where
  rem_nodup : s.remaining.Nodup
  rem_ids : ∀ x ∈ s.remaining, x ∈ taskIds
  groups_nodup : ∀ g ∈ s.groups, g.tasks.Nodup
  groups_ids : ∀ g ∈ s.groups, ∀ x ∈ g.tasks, x ∈ taskIds
  groups_rem : ∀ g ∈ s.groups, ∀ x ∈ g.tasks, x ∉ s.remaining
  groups_disj : List.Pairwise (fun g1 g2 => ∀ x ∈ g1.tasks, x ∉ g2.tasks) s.groups

theorem schedInv_initial (tasks : List Task) :
    SchedInv (tasks.map (·.task_id)) (initialSched tasks) where
  rem_nodup := List.Nodup.filter _ (firstDedup_nodup _)
  rem_ids := by
    intro x hx
    exact (mem_firstDedup _ x).mp (List.mem_of_mem_filter hx)
  groups_nodup := by intro g hg; cases hg
  groups_ids := by intro g hg; cases hg
  groups_rem := by intro g hg; cases hg
  groups_disj := List.Pairwise.nil

theorem schedInv_step (tasks : List Task) (s : SchedState)
    (inv : SchedInv (tasks.map (·.task_id)) s) :
    SchedInv (tasks.map (·.task_id)) (schedStep tasks s) := by
  have hready_sub := readyOf_subset tasks s
  have hready_nodup := readyOf_nodup tasks s inv.rem_nodup
  have hsorted_mem : ∀ x, x ∈ pySorted (readyOf tasks s) ↔ x ∈ readyOf tasks s :=
    fun x => mem_pySorted _ x
  refine ⟨?_, ?_, ?_, ?_, ?_, ?_⟩
  · exact List.Nodup.filter _ inv.rem_nodup
  · intro x hx
    exact inv.rem_ids x (List.mem_of_mem_filter hx)
  · intro g hg
    rcases List.mem_append.mp hg with hg' | hg'
    · exact inv.groups_nodup g hg'
    · rw [List.mem_singleton] at hg'
      subst hg'
      exact (pySorted_perm _).nodup_iff.mpr hready_nodup
  · intro g hg x hx
    rcases List.mem_append.mp hg with hg' | hg'
    · exact inv.groups_ids g hg' x hx
    · rw [List.mem_singleton] at hg'
      subst hg'
      exact inv.rem_ids x (hready_sub x ((hsorted_mem x).mp hx))
  · intro g hg x hx
    rcases List.mem_append.mp hg with hg' | hg'
    · intro hmem
      exact inv.groups_rem g hg' x hx (List.mem_of_mem_filter hmem)
    · rw [List.mem_singleton] at hg'
      subst hg'
      intro hmem
      have := (List.mem_filter.mp hmem).2
      simp only [decide_eq_true_eq] at this
      exact this ((hsorted_mem x).mp hx)
  · refine (List.pairwise_append).mpr ⟨inv.groups_disj, List.pairwise_singleton _ _, ?_⟩
    intro g1 hg1 g2 hg2 x hx1
    rw [List.mem_singleton] at hg2
    subst hg2
    intro hx2
    exact inv.groups_rem g1 hg1 x hx1 (hready_sub x ((hsorted_mem x).mp hx2))

theorem schedInv_loop (tasks : List Task) :
    ∀ (f : Nat) (s : SchedState), SchedInv (tasks.map (·.task_id)) s →
      SchedInv (tasks.map (·.task_id)) (levelLoop tasks f s) := by
  intro f
  induction f with
  | zero => intro s inv; exact inv
  | succ f ih =>
    intro s inv
    by_cases hrem : s.remaining = []
    · simpa [levelLoop, hrem] using inv
    · by_cases hready : readyOf tasks s = []
      · simp only [levelLoop, if_neg hrem, if_pos hready]
        exact ⟨inv.rem_nodup, inv.rem_ids, inv.groups_nodup, inv.groups_ids,
          inv.groups_rem, inv.groups_disj⟩
      · simp only [levelLoop, if_neg hrem, if_neg hready]
        exact ih _ (schedInv_step tasks s inv)

/-- The groups of every produced plan hold distinct, pairwise-disjoint,
resolvable task ids. -/
theorem plan_groups_inv (bp : Blueprint) :
    (∀ g ∈ (createExecutionPlan bp).groups, g.tasks.Nodup ∧
      ∀ x ∈ g.tasks, ∃ t, getTask bp x = some t) ∧
    List.Pairwise (fun g1 g2 => ∀ x ∈ g1.tasks, x ∉ g2.tasks)
      (createExecutionPlan bp).groups := by
  have inv := schedInv_loop (allTasks bp) ((initialSched (allTasks bp)).remaining.length + 1)
    (initialSched (allTasks bp)) (schedInv_initial (allTasks bp))
  have hplan : (createExecutionPlan bp).groups =
      (levelLoop (allTasks bp) ((initialSched (allTasks bp)).remaining.length + 1)
        (initialSched (allTasks bp))).groups := rfl
  rw [hplan]
  refine ⟨?_, inv.groups_disj⟩
  intro g hg
  refine ⟨inv.groups_nodup g hg, ?_⟩
  intro x hx
  have hid : x ∈ (allTasks bp).map (·.task_id) := inv.groups_ids g hg x hx
  obtain ⟨t, ht, htid⟩ := List.mem_map.mp hid
  cases hfind : getTask bp x with
  | some t' => exact ⟨t', rfl⟩
  | none =>
    rw [getTask, List.find?_eq_none] at hfind
    exact absurd (by simpa using htid) (by simpa using hfind t ht)

end BP

namespace BP

/-! ## C7 — no task lost or duplicated in PARALLEL -/

/-- The key/result pairs one parallel group writes. -/
def groupPairs (bp : Blueprint) (handler : Option Handler) (ids : List String) :
    List (String × TaskResult) :=
  (ids.filterMap (getTask bp)).map
    (fun t => (t.task_id, (capturedOutcome handler t).1))

theorem dictInsert_fresh (m : List (String × TaskResult)) (k : String) (v : TaskResult)
    (h : ∀ q ∈ m, q.1 ≠ k) : dictInsert m k v = m ++ [(k, v)] := by
  unfold dictInsert
  rw [if_neg]
  intro hany
  obtain ⟨p, hp, hpk⟩ := List.any_eq_true.mp hany
  exact h p hp (by simpa using hpk)

theorem foldl_dictInsert_append :
    ∀ (l m : List (String × TaskResult)), (l.map Prod.fst).Nodup →
      (∀ p ∈ l, ∀ q ∈ m, q.1 ≠ p.1) →
      l.foldl (fun acc p => dictInsert acc p.1 p.2) m = m ++ l := by
  intro l
  induction l with
  | nil => intro m _ _; simp
  | cons p t ih =>
    intro m hnodup hdisj
    simp only [List.foldl_cons]
    rw [dictInsert_fresh m p.1 p.2 (fun q hq => hdisj p (List.mem_cons_self p t) q hq)]
    rw [ih (m ++ [(p.1, p.2)]) (by simpa using (List.nodup_cons.mp (by simpa using hnodup)).2) ?_]
    · simp
    · intro p' hp' q hq
      rcases List.mem_append.mp hq with hq' | hq'
      · exact hdisj p' (List.mem_cons_of_mem p hp') q hq'
      · rw [List.mem_singleton] at hq'
        subst hq'
        simp only
        have := (List.nodup_cons.mp (by simpa using hnodup : (p.1 :: t.map Prod.fst).Nodup)).1
        intro hEq
        exact this (hEq ▸ List.mem_map_of_mem Prod.fst hp')

theorem filterMap_getTask_ids (bp : Blueprint) :
    ∀ ids : List String, (∀ x ∈ ids, ∃ t, getTask bp x = some t) →
      ((ids.filterMap (getTask bp)).map (·.task_id)) = ids := by
  intro ids
  induction ids with
  | nil => intro _; rfl
  | cons x t ih =>
    intro h
    obtain ⟨tk, htk⟩ := h x (List.mem_cons_self x t)
    rw [List.filterMap_cons, htk]
    simp only [List.map_cons]
    rw [getTask_id bp x tk htk, ih (fun y hy => h y (List.mem_cons_of_mem x hy))]

theorem groupPairs_keys (bp : Blueprint) (handler : Option Handler) (ids : List String)
    (h : ∀ x ∈ ids, ∃ t, getTask bp x = some t) :
    (groupPairs bp handler ids).map Prod.fst = ids := by
  unfold groupPairs
  rw [List.map_map]
  exact filterMap_getTask_ids bp ids h

theorem captured_success (handler : Handler) (t : Task) (r : TaskResult)
    (hhum : t.human_required = none) (hr : handler t = .ok r) :
    (capturedOutcome (some handler) t).1 = r := by
  simp [capturedOutcome, executeTask, hhum, hr, Except.map]

theorem executeParallel_append (bp : Blueprint) (handler : Option Handler)
    (ids : List String) (st : RunState)
    (hres : ∀ x ∈ ids, ∃ t, getTask bp x = some t) (hnodup : ids.Nodup)
    (hdisj : ∀ p ∈ st.results, p.1 ∉ ids) :
    (executeParallel bp handler ids st).results = st.results ++ groupPairs bp handler ids := by
  by_cases hne : ids = []
  · subst hne
    simp [executeParallel, groupPairs]
  · obtain ⟨x, hx⟩ := List.exists_mem_of_ne_nil ids hne
    obtain ⟨tk, htk⟩ := hres x hx
    have htne : ids.filterMap (getTask bp) ≠ [] :=
      List.ne_nil_of_mem (List.mem_filterMap.mpr ⟨x, hx, htk⟩)
    unfold executeParallel
    rw [if_neg hne, if_neg htne]
    simp only [executeTasksAsync]
    rw [zip_self_map (fun t' => (capturedOutcome handler t').1) (ids.filterMap (getTask bp))]
    rw [List.foldl_map]
    have hshape : ∀ m : List (String × TaskResult),
        (ids.filterMap (getTask bp)).foldl
          (fun acc a => dictInsert acc (a, (capturedOutcome handler a).1).1.task_id
            (a, (capturedOutcome handler a).1).2) m =
        (groupPairs bp handler ids).foldl (fun acc p => dictInsert acc p.1 p.2) m := by
      intro m
      unfold groupPairs
      rw [List.foldl_map]
    rw [hshape]
    rw [foldl_dictInsert_append _ _ ?_ ?_]
    · rw [groupPairs_keys bp handler ids hres]
      exact hnodup
    · intro p hp q hq
      have : p.1 ∈ (groupPairs bp handler ids).map Prod.fst := List.mem_map_of_mem Prod.fst hp
      rw [groupPairs_keys bp handler ids hres] at this
      intro hEq
      exact hdisj q hq (hEq ▸ this)

theorem runParallel_aux (bp : Blueprint) (handler : Handler)
    (hsucc : ∀ t, ∃ r, handler t = .ok r ∧ r.success = true)
    (hhum : ∀ t ∈ allTasks bp, t.human_required = none) :
    ∀ (gs : List ExecutionGroup) (st : RunState),
      (∀ g ∈ gs, g.tasks.Nodup ∧ ∀ x ∈ g.tasks, ∃ t, getTask bp x = some t) →
      List.Pairwise (fun g1 g2 => ∀ x ∈ g1.tasks, x ∉ g2.tasks) gs →
      (∀ p ∈ st.results, ∀ g ∈ gs, p.1 ∉ g.tasks) →
      (∀ p ∈ st.results, p.2.success = true) →
      (runPlanGroups bp (some handler) .parallel gs st).2 = none ∧
      (runPlanGroups bp (some handler) .parallel gs st).1.results.map Prod.fst =
        st.results.map Prod.fst ++ (gs.map (·.tasks)).flatten ∧
      (∀ p ∈ (runPlanGroups bp (some handler) .parallel gs st).1.results,
        p.2.success = true) := by
  intro gs
  induction gs with
  | nil =>
    intro st _ _ _ hsuc
    exact ⟨rfl, by simp [runPlanGroups], by simpa [runPlanGroups] using hsuc⟩
  | cons g gs' ih =>
    intro st hg hpair hdisj hsuc
    have hgt := hg g (List.mem_cons_self g gs')
    have hst' : (executeParallel bp (some handler) g.tasks st).results =
        st.results ++ groupPairs bp (some handler) g.tasks :=
      executeParallel_append bp (some handler) g.tasks st hgt.2 hgt.1
        (fun p hp => hdisj p hp g (List.mem_cons_self g gs'))
    have hnewsucc : ∀ p ∈ groupPairs bp (some handler) g.tasks, p.2.success = true := by
      intro p hp
      obtain ⟨t, ht, rfl⟩ := List.mem_map.mp hp
      obtain ⟨j, _, hgj⟩ := List.mem_filterMap.mp ht
      have htin : t ∈ allTasks bp := List.mem_of_find?_eq_some hgj
      obtain ⟨r, hr, hrs⟩ := hsucc t
      simp only
      rw [captured_success handler t r (hhum t htin) hr]
      exact hrs
    have hsuc' : ∀ p ∈ (executeParallel bp (some handler) g.tasks st).results,
        p.2.success = true := by
      intro p hp
      rw [hst'] at hp
      rcases List.mem_append.mp hp with h' | h'
      · exact hsuc p h'
      · exact hnewsucc p h'
    have hfail : failedCount (executeParallel bp (some handler) g.tasks st) = 0 := by
      unfold failedCount
      rw [List.countP_eq_zero]
      intro p hp
      simp [hsuc' p hp]
    have hmode : (ExecutionMode.parallel = ExecutionMode.sequential) = False := by
      simp
    have hrun : runPlanGroups bp (some handler) .parallel (g :: gs') st =
        runPlanGroups bp (some handler) .parallel gs'
          (executeParallel bp (some handler) g.tasks st) := by
      simp only [runPlanGroups, hmode, if_false, hfail]
      simp
    rw [hrun]
    have hdisj' : ∀ p ∈ (executeParallel bp (some handler) g.tasks st).results,
        ∀ g2 ∈ gs', p.1 ∉ g2.tasks := by
      intro p hp g2 hg2
      rw [hst'] at hp
      rcases List.mem_append.mp hp with h' | h'
      · exact hdisj p h' g2 (List.mem_cons_of_mem g hg2)
      · have : p.1 ∈ (groupPairs bp (some handler) g.tasks).map Prod.fst :=
          List.mem_map_of_mem Prod.fst h'
        rw [groupPairs_keys bp (some handler) g.tasks hgt.2] at this
        exact (List.pairwise_cons.mp hpair).1 g2 hg2 p.1 this
    obtain ⟨h2none, hkeys, hsucF⟩ := ih (executeParallel bp (some handler) g.tasks st)
      (fun g2 hg2 => hg g2 (List.mem_cons_of_mem g hg2))
      (List.pairwise_cons.mp hpair).2 hdisj' hsuc'
    refine ⟨h2none, ?_, hsucF⟩
    rw [hkeys, hst', List.map_append, groupPairs_keys bp (some handler) g.tasks hgt.2]
    simp

end BP

namespace BP

theorem flatten_groups_nodup :
    ∀ gs : List ExecutionGroup, (∀ g ∈ gs, g.tasks.Nodup) →
      List.Pairwise (fun g1 g2 => ∀ x ∈ g1.tasks, x ∉ g2.tasks) gs →
      ((gs.map (·.tasks)).flatten).Nodup := by
  intro gs
  induction gs with
  | nil => intro _ _; exact List.nodup_nil
  | cons g gs' ih =>
    intro hn hp
    simp only [List.map_cons, List.flatten_cons]
    rw [List.nodup_append]
    refine ⟨hn g (List.mem_cons_self g gs'),
      ih (fun g2 hg2 => hn g2 (List.mem_cons_of_mem g hg2)) (List.pairwise_cons.mp hp).2, ?_⟩
    intro x hx hx'
    obtain ⟨l, hl, hxl⟩ := List.mem_flatten.mp hx'
    obtain ⟨g2, hg2, rfl⟩ := List.mem_map.mp hl
    exact (List.pairwise_cons.mp hp).1 g2 hg2 x hx hxl

/-- C7: running every group of a plan in PARALLEL mode with an
always-successful handler and no human-required tasks completes without
halting, the result map gains exactly the ids of each group — its final
key sequence is the concatenation of the plan's groups — and those keys
are pairwise distinct, so no entry is ever overwritten and each task id
is written at most once per run. -/
theorem parallel_run_writes_each_task_once (bp : Blueprint) (handler : Handler)
    (hsucc : ∀ t, ∃ r, handler t = .ok r ∧ r.success = true)
    (hhum : ∀ t ∈ allTasks bp, t.human_required = none) :
    (runPlanGroups bp (some handler) .parallel (createExecutionPlan bp).groups {}).2 =
      none ∧
    (runPlanGroups bp (some handler) .parallel
        (createExecutionPlan bp).groups {}).1.results.map Prod.fst =
      ((createExecutionPlan bp).groups.map (·.tasks)).flatten ∧
    ((runPlanGroups bp (some handler) .parallel
        (createExecutionPlan bp).groups {}).1.results.map Prod.fst).Nodup := by
  obtain ⟨hfacts, hpair⟩ := plan_groups_inv bp
  obtain ⟨hnone, hkeys, _⟩ := runParallel_aux bp handler hsucc hhum
    (createExecutionPlan bp).groups {}
    hfacts hpair (by intro p hp; cases hp) (by intro p hp; cases hp)
  refine ⟨hnone, ?_, ?_⟩
  · simpa using hkeys
  · rw [show ((runPlanGroups bp (some handler) .parallel
        (createExecutionPlan bp).groups {}).1.results.map Prod.fst) =
      ((createExecutionPlan bp).groups.map (·.tasks)).flatten from by simpa using hkeys]
    exact flatten_groups_nodup _ (fun g hg => (hfacts g hg).1) hpair

/-- C7 witness fixture: `T1` with dependants `T2`, `T3`. -/
def bpDiamond : Blueprint :=
  { metadata := { title := "Diamond" },
    tiers := [mkTier "T1" "Tier 1"
      [{ task_id := "T1", name := "T1", test_command := "t",
         iface := some { input := "", output := "" } },
       { task_id := "T2", name := "T2", dependencies := ["T1"], test_command := "t",
         iface := some { input := "", output := "" } },
       { task_id := "T3", name := "T3", dependencies := ["T1"], test_command := "t",
         iface := some { input := "", output := "" } }] none .not_started] }

/-- C7 witness fixture: a handler that succeeds on every task. -/
def okHandler : Handler := fun t => .ok { task_id := t.task_id, success := true }

/-- Witness for C7: the diamond plan groups `[[T1], [T2, T3]]` run in
PARALLEL write exactly the keys `T1, T2, T3`, each once. -/
theorem parallel_run_writes_each_task_once_witness :
    (runPlanGroups bpDiamond (some okHandler) .parallel
        (createExecutionPlan bpDiamond).groups {}).1.results.map Prod.fst =
      ["T1", "T2", "T3"] := by
  have h := parallel_run_writes_each_task_once bpDiamond okHandler
    (fun t => ⟨{ task_id := t.task_id, success := true }, rfl, rfl⟩)
    (by decide)
  exact h.2.1.trans (by decide)

end BP

namespace BP

/-! ## C4 — leveling respects dependency order -/

/-- One dependency edge of the Blueprint digraph, restricted to edges
among existing task ids: `a` depends on `b`, both naming tasks. -/
def bpEdge (bp : Blueprint) (a b : String) : Prop :=
  (∃ t ∈ allTasks bp, t.task_id = a ∧ b ∈ t.dependencies) ∧
  (∃ t ∈ allTasks bp, t.task_id = b)

/-- The Blueprint dependency digraph contains a directed cycle. -/
def bpHasCycle (bp : Blueprint) : Prop := ∃ x, Relation.TransGen (bpEdge bp) x x

/-- The ids already placed into groups. -/
def scheduledIds (s : SchedState) : List String := (s.groups.map (·.tasks)).flatten

/-- The ids marked complete before leveling starts. -/
def compIds (tasks : List Task) : List String :=
  (tasks.filter (fun t => t.status == .complete)).map (·.task_id)

theorem find?_key_unique {α : Type} (key : α → String) (t : α) :
    ∀ l : List α, (l.map key).Nodup → t ∈ l →
      l.find? (fun x => key x == key t) = some t := by
  intro l
  induction l with
  | nil => intro _ h; cases h
  | cons a l' ih =>
    intro hN ht
    rcases List.mem_cons.mp ht with rfl | ht'
    · rw [List.find?_cons_of_pos _ (by simp)]
    · have hka : key a ≠ key t := by
        intro hEq
        have h1 : key a ∉ l'.map key := (List.nodup_cons.mp (by simpa using hN)).1
        exact h1 (hEq ▸ List.mem_map_of_mem key ht')
      rw [List.find?_cons_of_neg _ (by simpa using hka)]
      exact ih (List.nodup_cons.mp (by simpa using hN)).2 ht'

theorem taskMap_of_nodup (tasks : List Task)
    (hN : (tasks.map (·.task_id)).Nodup) (t : Task) (ht : t ∈ tasks) :
    taskMap tasks t.task_id = some t := by
  unfold taskMap
  exact find?_key_unique (·.task_id) t tasks.reverse
    (by rw [List.map_reverse]; exact List.nodup_reverse.mpr hN) (List.mem_reverse.mpr ht)

end BP

namespace BP

theorem depsOf_of_nodup (tasks : List Task)
    (hN : (tasks.map (·.task_id)).Nodup) (t : Task) (ht : t ∈ tasks) :
    depsOf tasks t.task_id = t.dependencies := by
  unfold depsOf
  rw [taskMap_of_nodup tasks hN t ht]
  rfl

/-- Evaluating the inner decrement loop of `schedStep` at one key. -/
theorem inner_dec_eval (tasks : List Task) (v : String) :
    ∀ (L : List String) (f2 : String → Int),
      (L.foldl (fun f2 dep =>
        if tasks.any (fun t => t.task_id == dep) then fupd f2 dep (f2 dep - 1) else f2) f2) v =
      if tasks.any (fun t => t.task_id == v) then f2 v - (L.count v : Int) else f2 v := by
  intro L
  induction L with
  | nil => intro f2; simp
  | cons d L' ih =>
    intro f2
    simp only [List.foldl_cons]
    by_cases hd : tasks.any (fun t => t.task_id == d)
    · rw [if_pos hd, ih]
      by_cases hvd : v = d
      · subst hvd
        rw [if_pos hd, if_pos hd]
        simp only [fupd, if_pos rfl]
        rw [List.count_cons_self]
        push_cast
        ring
      · by_cases hv : tasks.any (fun t => t.task_id == v)
        · rw [if_pos hv, if_pos hv]
          simp only [fupd, if_neg hvd]
          rw [List.count_cons_of_ne (by simpa using hvd)]
        · rw [if_neg hv, if_neg hv]
          simp [fupd, hvd]
    · rw [if_neg hd, ih]
      by_cases hv : tasks.any (fun t => t.task_id == v)
      · rw [if_pos hv, if_pos hv]
        have hvd : v ≠ d := by
          intro hEq; subst hEq; exact hd hv
        rw [List.count_cons_of_ne (by simpa using hvd)]
      · rw [if_neg hv, if_neg hv]

/-- Evaluating the full decrement fold of `schedStep` at one existing key. -/
theorem outer_dec_eval (tasks : List Task) (v : String)
    (hv : tasks.any (fun t => t.task_id == v)) :
    ∀ (R : List String) (f : String → Int),
      (R.foldl (fun f id =>
        (dependentsOf tasks id).foldl (fun f2 dep =>
          if tasks.any (fun t => t.task_id == dep) then fupd f2 dep (f2 dep - 1) else f2) f) f) v =
      f v - ((R.map (fun u => ((dependentsOf tasks u).count v : Int))).sum) := by
  intro R
  induction R with
  | nil => intro f; simp
  | cons u R' ih =>
    intro f
    simp only [List.foldl_cons, List.map_cons, List.sum_cons]
    rw [ih, inner_dec_eval tasks v (dependentsOf tasks u) f, if_pos hv]
    ring

theorem count_map_const (v tid : String) :
    ∀ (l : List String), ((l.map (fun _ => tid)).count v) =
      if tid = v then l.length else 0 := by
  intro l
  induction l with
  | nil => simp
  | cons a l' ih =>
    simp only [List.map_cons, List.length_cons]
    by_cases h : tid = v
    · subst h
      rw [List.count_cons_self, ih, if_pos rfl, if_pos rfl]
    · rw [List.count_cons_of_ne (fun hEq => h hEq.symm), ih, if_neg h, if_neg h]

theorem count_foldl_append_seg {α : Type} (seg : α → List String) (v : String) :
    ∀ (ts : List α) (acc : List String),
      ((ts.foldl (fun acc t => acc ++ seg t) acc).count v) =
      acc.count v + ((ts.map (fun t => (seg t).count v)).sum) := by
  intro ts
  induction ts with
  | nil => intro acc; simp
  | cons t ts' ih =>
    intro acc
    simp only [List.foldl_cons, List.map_cons, List.sum_cons]
    rw [ih, List.count_append]
    ring

theorem sum_seg_eq_depsOf (u v : String) :
    ∀ (tasks : List Task), (tasks.map (·.task_id)).Nodup →
      ((tasks.map (fun t => ((t.dependencies.filter (fun d => d == u)).map
        (fun _ => t.task_id)).count v)).sum) = (depsOf tasks v).count u := by
  intro tasks
  induction tasks with
  | nil => intro _; simp [depsOf, taskMap]
  | cons t ts ih =>
    intro hN
    have hN' : (ts.map (·.task_id)).Nodup := (List.nodup_cons.mp (by simpa using hN)).2
    have hnotin : t.task_id ∉ ts.map (·.task_id) := (List.nodup_cons.mp (by simpa using hN)).1
    simp only [List.map_cons, List.sum_cons]
    rw [count_map_const v t.task_id, ih hN']
    by_cases hv : t.task_id = v
    · subst hv
      have hmap_ts : taskMap ts t.task_id = none := by
        unfold taskMap
        rw [List.find?_eq_none]
        intro t' ht' hEq
        refine hnotin ?_
        have htid : t'.task_id = t.task_id := by simpa using hEq
        rw [← htid]
        exact List.mem_map_of_mem _ (List.mem_reverse.mp ht')
      have hdeps_ts : depsOf ts t.task_id = [] := by
        unfold depsOf; rw [hmap_ts]; rfl
      have hd : depsOf (t :: ts) t.task_id = t.dependencies := by
        unfold depsOf
        rw [taskMap_of_nodup (t :: ts) hN t (List.mem_cons_self t ts)]
        rfl
      rw [hdeps_ts, hd, if_pos rfl]
      simp only [List.count_nil, Nat.add_zero]
      exact (List.countP_eq_length_filter _ _).symm
    · have hd : depsOf (t :: ts) v = depsOf ts v := by
        unfold depsOf taskMap
        rw [List.reverse_cons, List.find?_append]
        rw [List.find?_cons_of_neg _ (by simpa using hv), List.find?_nil]
        simp
      rw [hd, if_neg hv]
      simp

/-- Under unique ids, the number of times `v` occurs in `dependents[u]`
equals the number of times `u` occurs in the dependency list of the task
named `v` (`dependents[dep].append(task.task_id)` appends once per
occurrence). -/
theorem count_dependentsOf (tasks : List Task) (hN : (tasks.map (·.task_id)).Nodup)
    (u v : String) (hu : tasks.any (fun t => t.task_id == u)) :
    (dependentsOf tasks u).count v = (depsOf tasks v).count u := by
  unfold dependentsOf
  rw [if_pos hu, count_foldl_append_seg (fun t =>
    (t.dependencies.filter (fun d => d == u)).map (fun _ => t.task_id)) v tasks []]
  simp only [List.count_nil, Nat.zero_add]
  exact sum_seg_eq_depsOf u v tasks hN

end BP

namespace BP

theorem countP_mem_cons (a : String) (R : List String) (ha : a ∉ R) :
    ∀ l : List String, l.countP (fun d => decide (d ∈ a :: R)) =
      l.count a + l.countP (fun d => decide (d ∈ R)) := by
  intro l
  induction l with
  | nil => simp
  | cons x l' ih =>
    by_cases hx : x = a
    · subst hx
      rw [List.countP_cons_of_pos _ _ (by simp), List.count_cons_self,
        List.countP_cons_of_neg _ _ (by simpa using ha), ih]
      ring
    · by_cases hxR : x ∈ R
      · rw [List.countP_cons_of_pos _ _ (by simp [hxR]),
          List.count_cons_of_ne (Ne.symm hx), List.countP_cons_of_pos _ _ (by simpa using hxR),
          ih]
        ring
      · rw [List.countP_cons_of_neg _ _ (by simp [hx, hxR]),
          List.count_cons_of_ne (Ne.symm hx), List.countP_cons_of_neg _ _ (by simpa using hxR),
          ih]

/-- For a duplicate-free collection `R`, summing per-element occurrence
counts equals counting membership in `R`. -/
theorem sum_count_countP (l : List String) :
    ∀ R : List String, R.Nodup →
      ((R.map (fun u => l.count u)).sum) = l.countP (fun d => decide (d ∈ R)) := by
  intro R
  induction R with
  | nil => intro _; simp
  | cons a R' ih =>
    intro hN
    simp only [List.map_cons, List.sum_cons]
    rw [ih (List.nodup_cons.mp hN).2, countP_mem_cons a R' (List.nodup_cons.mp hN).1 l]

theorem countP_or_split (A B : List String) (hdisj : ∀ d, d ∈ B → d ∉ A) :
    ∀ l : List String, l.countP (fun d => decide (d ∈ A ∨ d ∈ B)) =
      l.countP (fun d => decide (d ∈ A)) + l.countP (fun d => decide (d ∈ B)) := by
  intro l
  induction l with
  | nil => simp
  | cons x l' ih =>
    by_cases hA : x ∈ A
    · rw [List.countP_cons_of_pos _ _ (by simp [hA]),
        List.countP_cons_of_pos _ _ (by simpa using hA),
        List.countP_cons_of_neg _ _ (by simpa using fun hB => hdisj x hB hA), ih]
      ring
    · by_cases hB : x ∈ B
      · rw [List.countP_cons_of_pos _ _ (by simp [hB]),
          List.countP_cons_of_neg _ _ (by simpa using hA),
          List.countP_cons_of_pos _ _ (by simpa using hB), ih]
        ring
      · rw [List.countP_cons_of_neg _ _ (by simp [hA, hB]),
          List.countP_cons_of_neg _ _ (by simpa using hA),
          List.countP_cons_of_neg _ _ (by simpa using hB), ih]

end BP

namespace BP

theorem mem_scheduledIds (s : SchedState) (d : String) (h : d ∈ scheduledIds s) :
    ∃ j g', s.groups[j]? = some g' ∧ d ∈ g'.tasks ∧ j < s.groups.length := by
  obtain ⟨l, hl, hdl⟩ := List.mem_flatten.mp h
  obtain ⟨g', hg', rfl⟩ := List.mem_map.mp hl
  obtain ⟨j, hj⟩ := List.mem_iff_getElem?.mp hg'
  exact ⟨j, g', hj, hdl, (List.getElem?_eq_some_iff.mp hj).1⟩

/-- The ordering invariant of the leveling loop, under unique task ids:
`completed` is exactly the initially-complete ids plus the scheduled
ids, `in_degree` counts the dependency occurrences not yet scheduled,
and every group member's dependencies lie in the initially-complete set
or in strictly earlier groups. -/
structure OrdInv (tasks : List Task) (s : SchedState) : Prop where
  base : SchedInv (tasks.map (·.task_id)) s
  comp_iff : ∀ x, x ∈ s.completed ↔ (x ∈ compIds tasks ∨ x ∈ scheduledIds s)
  rem_not_comp : ∀ x ∈ s.remaining, x ∉ s.completed
  deg : ∀ v ∈ tasks.map (·.task_id), s.inDeg v =
    ((depsOf tasks v).length : Int) -
      ((depsOf tasks v).countP (fun d => decide (d ∈ scheduledIds s)) : Int)
  not_comp0 : ∀ g ∈ s.groups, ∀ x ∈ g.tasks, x ∉ compIds tasks
  order : ∀ (i : Nat) (g : ExecutionGroup), s.groups[i]? = some g →
    ∀ x ∈ g.tasks, ∀ d ∈ depsOf tasks x,
      d ∈ compIds tasks ∨ ∃ j g', j < i ∧ s.groups[j]? = some g' ∧ d ∈ g'.tasks

theorem ordInv_initial (tasks : List Task) : OrdInv tasks (initialSched tasks) where
  base := schedInv_initial tasks
  comp_iff := by
    intro x
    simp [initialSched, scheduledIds, compIds]
  rem_not_comp := by
    intro x hx
    have := (List.mem_filter.mp hx).2
    simpa [initialSched] using this
  deg := by
    intro v _
    have hsched : scheduledIds (initialSched tasks) = [] := rfl
    rw [hsched]
    simp only [initialSched, inDeg0, depsOf]
    cases taskMap tasks v with
    | none => simp
    | some t => simp
  not_comp0 := by intro g hg; cases hg
  order := by intro i g hg; cases hg

theorem ordInv_step (tasks : List Task) (hN : (tasks.map (·.task_id)).Nodup)
    (s : SchedState) (inv : OrdInv tasks s) : OrdInv tasks (schedStep tasks s) := by
  have hR_sub := readyOf_subset tasks s
  have hR_nodup := readyOf_nodup tasks s inv.base.rem_nodup
  have hR_ids : ∀ x ∈ readyOf tasks s, x ∈ tasks.map (·.task_id) :=
    fun x hx => inv.base.rem_ids x (hR_sub x hx)
  have hR_not_sched : ∀ x ∈ readyOf tasks s, x ∉ scheduledIds s := by
    intro x hx hsched
    obtain ⟨l, hl, hxl⟩ := List.mem_flatten.mp hsched
    obtain ⟨g', hg', rfl⟩ := List.mem_map.mp hl
    exact inv.base.groups_rem g' hg' x hxl (hR_sub x hx)
  have hschedEq : scheduledIds (schedStep tasks s) =
      scheduledIds s ++ pySorted (readyOf tasks s) := by
    simp [scheduledIds, schedStep]
  have hsched' : ∀ x, x ∈ scheduledIds (schedStep tasks s) ↔
      (x ∈ scheduledIds s ∨ x ∈ readyOf tasks s) := by
    intro x
    rw [hschedEq, List.mem_append, mem_pySorted]
  have hcomp' : ∀ x, x ∈ (schedStep tasks s).completed ↔
      (x ∈ s.completed ∨ x ∈ readyOf tasks s) := by
    intro x
    show x ∈ s.completed ++ readyOf tasks s ↔ _
    exact List.mem_append
  refine ⟨schedInv_step tasks s inv.base, ?_, ?_, ?_, ?_, ?_⟩
  · intro x
    rw [hcomp', hsched', inv.comp_iff]
    tauto
  · intro x hx
    have hx' : x ∈ s.remaining ∧ x ∉ readyOf tasks s := by
      have := List.mem_filter.mp hx
      exact ⟨this.1, by simpa using this.2⟩
    rw [hcomp']
    rintro (h | h)
    · exact inv.rem_not_comp x hx'.1 h
    · exact hx'.2 h
  · intro v hv
    have hvany : tasks.any (fun t => t.task_id == v) := by
      obtain ⟨t, ht, rfl⟩ := List.mem_map.mp hv
      exact List.any_eq_true.mpr ⟨t, ht, by simp⟩
    have hstep : (schedStep tasks s).inDeg v =
        s.inDeg v - (((readyOf tasks s).map
          (fun u => ((dependentsOf tasks u).count v : Int))).sum) :=
      outer_dec_eval tasks v hvany (readyOf tasks s) s.inDeg
    rw [hstep, inv.deg v hv]
    have hmapeq : (readyOf tasks s).map (fun u => ((dependentsOf tasks u).count v : Int)) =
        (readyOf tasks s).map (fun u => (((depsOf tasks v).count u : Nat) : Int)) := by
      apply List.map_congr_left
      intro u hu
      have huany : tasks.any (fun t => t.task_id == u) := by
        obtain ⟨t, ht, htid⟩ := List.mem_map.mp (hR_ids u hu)
        exact List.any_eq_true.mpr ⟨t, ht, by simp [htid]⟩
      rw [count_dependentsOf tasks hN u v huany]
    rw [hmapeq]
    have hsum : ((readyOf tasks s).map (fun u => (((depsOf tasks v).count u : Nat) : Int))).sum =
        ((((readyOf tasks s).map (fun u => (depsOf tasks v).count u)).sum : Nat) : Int) := by
      rw [Nat.cast_list_sum, List.map_map]
      rfl
    rw [hsum, sum_count_countP (depsOf tasks v) (readyOf tasks s) hR_nodup]
    have hsplit : (depsOf tasks v).countP
        (fun d => decide (d ∈ scheduledIds (schedStep tasks s))) =
        (depsOf tasks v).countP (fun d => decide (d ∈ scheduledIds s)) +
        (depsOf tasks v).countP (fun d => decide (d ∈ readyOf tasks s)) := by
      have hcongr : (depsOf tasks v).countP
          (fun d => decide (d ∈ scheduledIds (schedStep tasks s))) =
          (depsOf tasks v).countP
            (fun d => decide (d ∈ scheduledIds s ∨ d ∈ readyOf tasks s)) := by
        apply List.countP_congr
        intro x _
        simp only [decide_eq_true_eq]
        exact hsched' x
      rw [hcongr]
      exact countP_or_split (scheduledIds s) (readyOf tasks s) hR_not_sched (depsOf tasks v)
    rw [hsplit]
    push_cast
    ring
  · intro g hg x hx
    rcases List.mem_append.mp hg with hg' | hg'
    · exact inv.not_comp0 g hg' x hx
    · rw [List.mem_singleton] at hg'
      subst hg'
      simp only at hx
      have hxR : x ∈ readyOf tasks s := (mem_pySorted _ x).mp hx
      intro hcomp0
      exact inv.rem_not_comp x (hR_sub x hxR)
        ((inv.comp_iff x).mpr (Or.inl hcomp0))
  · intro i g hgi x hx d hd
    have hglen : ∀ j, j < s.groups.length →
        (schedStep tasks s).groups[j]? = s.groups[j]? := by
      intro j hj
      show (s.groups ++ [_])[j]? = _
      rw [List.getElem?_append]
      rw [if_pos hj]
    by_cases hi : i < s.groups.length
    · rw [hglen i hi] at hgi
      rcases inv.order i g hgi x hx d hd with h | ⟨j, g', hji, hgj, hdg⟩
      · exact Or.inl h
      · exact Or.inr ⟨j, g', hji, by
          rw [hglen j (Nat.lt_trans hji hi)]; exact hgj, hdg⟩
    · have hgi' : (s.groups ++
          [{ group_id := "G" ++ toString (s.groupNum + 1),
             tasks := pySorted (readyOf tasks s),
             description := some ("Parallel group " ++ toString (s.groupNum + 1) ++ " (" ++
               toString (readyOf tasks s).length ++ " tasks)") }])[i]? = some g := hgi
      rw [List.getElem?_append_right (Nat.le_of_not_lt hi)] at hgi'
      have hi0 : i - s.groups.length = 0 := by
        have := (List.getElem?_eq_some_iff.mp hgi').1
        simp only [List.length_cons, List.length_nil] at this
        omega
      rw [hi0] at hgi'
      simp only [List.getElem?_cons_zero, Option.some.injEq] at hgi'
      have hieq : i = s.groups.length := by
        have := Nat.le_of_not_lt hi
        omega
      have hxR : x ∈ readyOf tasks s := by
        rw [← hgi'] at hx
        exact (mem_pySorted _ x).mp hx
      have hsched_to_group : d ∈ scheduledIds s →
          ∃ j g', j < i ∧ (schedStep tasks s).groups[j]? = some g' ∧ d ∈ g'.tasks := by
        intro hds
        obtain ⟨j, g', hgj, hdg, hjlen⟩ := mem_scheduledIds s d hds
        exact ⟨j, g', hieq ▸ hjlen, by rw [hglen j hjlen]; exact hgj, hdg⟩
      have hpred := (List.mem_filter.mp hxR).2
      rw [Bool.or_eq_true] at hpred
      rcases hpred with hdeg0 | hall
      · -- in_degree[x] == 0: every dependency occurrence already scheduled
        have hxids : x ∈ tasks.map (·.task_id) := hR_ids x hxR
        have hdegx := inv.deg x hxids
        have hz : s.inDeg x = 0 := by
          simpa using hdeg0
        rw [hz] at hdegx
        have hcount : (depsOf tasks x).countP
            (fun d => decide (d ∈ scheduledIds s)) = (depsOf tasks x).length := by
          have hle : (depsOf tasks x).countP (fun d => decide (d ∈ scheduledIds s)) ≤
              (depsOf tasks x).length := List.countP_le_length _
          omega
        have hall' := List.countP_eq_length.mp hcount
        have hds : d ∈ scheduledIds s := by
          have := hall' d hd
          simpa using this
        exact Or.inr (hsched_to_group hds)
      · -- all dependencies in completed
        have hdc : d ∈ s.completed := by
          have := List.all_eq_true.mp hall d hd
          simpa [List.contains] using this
        rcases (inv.comp_iff d).mp hdc with h | h
        · exact Or.inl h
        · exact Or.inr (hsched_to_group h)

end BP

namespace BP

theorem ordInv_loop (tasks : List Task) (hN : (tasks.map (·.task_id)).Nodup) :
    ∀ (f : Nat) (s : SchedState), OrdInv tasks s →
      OrdInv tasks (levelLoop tasks f s) := by
  intro f
  induction f with
  | zero => intro s inv; exact inv
  | succ f ih =>
    intro s inv
    by_cases hrem : s.remaining = []
    · simpa [levelLoop, hrem] using inv
    · by_cases hready : readyOf tasks s = []
      · simp only [levelLoop, if_neg hrem, if_pos hready]
        exact ⟨⟨inv.base.rem_nodup, inv.base.rem_ids, inv.base.groups_nodup,
          inv.base.groups_ids, inv.base.groups_rem, inv.base.groups_disj⟩,
          inv.comp_iff, inv.rem_not_comp, inv.deg, inv.not_comp0, inv.order⟩
      · simp only [levelLoop, if_neg hrem, if_neg hready]
        exact ih _ (ordInv_step tasks hN s inv)

/-- C4: for a Blueprint with unique task ids, a fully-resolvable and
acyclic dependency graph, every dependency edge `u -> v` (task `v`
depends on task `u`) whose endpoints both appear in groups of the plan
has `u`'s group index strictly below `v`'s.  (The proof does not even
need resolvability or acyclicity; they are kept as the claim states
them.) -/
theorem scheduler_levels_respect_order (bp : Blueprint)
    (hN : ((allTasks bp).map (·.task_id)).Nodup)
    (hres : ∀ t ∈ allTasks bp, ∀ d ∈ t.dependencies, d ∈ (allTasks bp).map (·.task_id))
    (hacyc : ¬ bpHasCycle bp)
    (i j : Nat) (gi gj : ExecutionGroup) (u v : String)
    (hgi : (createExecutionPlan bp).groups[i]? = some gi)
    (hgj : (createExecutionPlan bp).groups[j]? = some gj)
    (hu : u ∈ gi.tasks) (hv : v ∈ gj.tasks)
    (hedge : ∃ t ∈ allTasks bp, t.task_id = v ∧ u ∈ t.dependencies) :
    i < j := by
  have inv : OrdInv (allTasks bp)
      (levelLoop (allTasks bp) ((initialSched (allTasks bp)).remaining.length + 1)
        (initialSched (allTasks bp))) :=
    ordInv_loop (allTasks bp) hN _ _ (ordInv_initial (allTasks bp))
  have hplan : (createExecutionPlan bp).groups =
      (levelLoop (allTasks bp) ((initialSched (allTasks bp)).remaining.length + 1)
        (initialSched (allTasks bp))).groups := rfl
  rw [hplan] at hgi hgj
  obtain ⟨t, ht, htv, hut⟩ := hedge
  have hdeps : depsOf (allTasks bp) v = t.dependencies := by
    rw [← htv]
    exact depsOf_of_nodup (allTasks bp) hN t ht
  have horder := inv.order j gj hgj v hv u (by rw [hdeps]; exact hut)
  rcases horder with hcomp0 | ⟨j', g', hj'j, hgj', hug'⟩
  · exfalso
    have hgi_mem : gi ∈ (levelLoop (allTasks bp)
        ((initialSched (allTasks bp)).remaining.length + 1)
        (initialSched (allTasks bp))).groups := by
      obtain ⟨h, hEq⟩ := List.getElem?_eq_some_iff.mp hgi
      exact hEq ▸ List.getElem_mem h
    exact inv.not_comp0 gi hgi_mem u hu hcomp0
  · have hpw := inv.base.groups_disj
    rw [List.pairwise_iff_getElem] at hpw
    obtain ⟨hilt, hiEq⟩ := List.getElem?_eq_some_iff.mp hgi
    obtain ⟨hj'lt, hj'Eq⟩ := List.getElem?_eq_some_iff.mp hgj'
    rcases Nat.lt_trichotomy i j' with hlt | hEq | hgt
    · exfalso
      have := hpw i j' hilt hj'lt hlt
      rw [hiEq, hj'Eq] at this
      exact this u hu hug'
    · omega
    · exfalso
      have := hpw j' i hj'lt hilt hgt
      rw [hiEq, hj'Eq] at this
      exact this u hug' hu

/-- The diamond Blueprint's dependency digraph is acyclic: every edge
targets `T1`, which has no outgoing edge. -/
theorem bpDiamond_acyclic : ¬ bpHasCycle bpDiamond := by
  rintro ⟨x, hcyc⟩
  have hT1_no_out : ∀ c, ¬ bpEdge bpDiamond "T1" c := by
    rintro c ⟨⟨t, ht, hid, hc⟩, -⟩
    fin_cases ht <;> simp_all
  have htarget : ∀ a b, bpEdge bpDiamond a b → b = "T1" := by
    rintro a b ⟨⟨t, ht, hid, hb⟩, -⟩
    fin_cases ht <;> simp_all
  obtain ⟨b, hxb, hbx⟩ := Relation.TransGen.head'_iff.mp hcyc
  have hb : b = "T1" := htarget x b hxb
  subst hb
  rcases Relation.ReflTransGen.cases_head hbx with hEq | ⟨c, hc, -⟩
  · subst hEq
    exact hT1_no_out "T1" hxb
  · exact hT1_no_out c hc

/-- Witness for C4 on the diamond: `T1` sits in group 0, its dependant
`T2` in group 1. -/
theorem scheduler_levels_respect_order_witness : (0 : Nat) < 1 := by
  have h := scheduler_levels_respect_order bpDiamond (by decide)
    (by decide) bpDiamond_acyclic
    0 1 { group_id := "G1", tasks := ["T1"],
          description := some "Parallel group 1 (1 tasks)" }
    { group_id := "G2", tasks := ["T2", "T3"],
      description := some "Parallel group 2 (2 tasks)" }
    "T1" "T2" (by decide) (by decide) (by decide) (by decide)
    ⟨{ task_id := "T2", name := "T2", dependencies := ["T1"], test_command := "t",
       iface := some { input := "", output := "" } }, by decide, rfl, by decide⟩
  exact h

end BP

namespace BP

/-! ## C3 — cycle detection

The code's dependency digraph: `gE g a b` says task `a` depends on `b`,
where `g` is the last-wins adjacency dict `_detect_circular_dependencies`
builds (`depsOf tasks`). -/

/-- Edge of the adjacency dict: `b` occurs in the dependency list of the
winning task named `a`. -/
def gE (g : String → List String) (a b : String) : Prop := b ∈ g a

/-- No directed cycle passes through `v`. -/
def NoCycThru (g : String → List String) (v : String) : Prop :=
  ¬ Relation.TransGen (gE g) v v

/-- `v` is fully explored: visited and off the recursion stack. -/
def BlackIn (σ : DfsState) (v : String) : Prop :=
  v ∈ σ.visited ∧ v ∉ σ.recStack

/-- Structural well-formedness of the DFS state: the recursion stack
holds exactly the path's nodes, stack nodes are visited, and the path is
an edge chain. -/
structure DfsWF (g : String → List String) (σ : DfsState) : Prop where
  stack_path : ∀ x, x ∈ σ.recStack ↔ x ∈ σ.path
  stack_vis : ∀ x ∈ σ.recStack, x ∈ σ.visited
  chain : List.Chain' (fun a b => b ∈ g a) σ.path

/-- Completeness invariant: while no cycle has been reported, no cycle
passes through a fully-explored node. -/
def DfsCInv (g : String → List String) (σ : DfsState) : Prop :=
  σ.cycles = [] → ∀ v, BlackIn σ v → NoCycThru g v

/-- Soundness invariant: a reported cycle means a cycle exists. -/
def DfsSInv (g : String → List String) (σ : DfsState) : Prop :=
  σ.cycles ≠ [] → ∃ x, Relation.TransGen (gE g) x x

/-- Number of `univ` entries not yet visited (the fuel measure). -/
def unvisCount (univ : List String) (σ : DfsState) : Nat :=
  (univ.filter (fun x => decide (x ∉ σ.visited))).length

theorem countP_lt_of_witness {α : Type} {p q : α → Bool}
    (himp : ∀ x, q x = true → p x = true) :
    ∀ (l : List α) (x0 : α), x0 ∈ l → p x0 = true → q x0 = false →
      l.countP q < l.countP p := by
  intro l
  induction l with
  | nil => intro x0 h; cases h
  | cons a t ih =>
    intro x0 hx0 hp hq
    rcases List.mem_cons.mp hx0 with rfl | hx0'
    · rw [List.countP_cons_of_neg _ _ (by simp [hq]), List.countP_cons_of_pos _ _ hp]
      exact Nat.lt_succ_of_le (List.countP_mono_left (fun x _ => himp x))
    · by_cases hqa : q a
      · rw [List.countP_cons_of_pos _ _ hqa, List.countP_cons_of_pos _ _ (himp a hqa)]
        exact Nat.succ_lt_succ (ih x0 hx0' hp hq)
      · rw [List.countP_cons_of_neg _ _ (by simpa using hqa)]
        by_cases hpa : p a
        · rw [List.countP_cons_of_pos _ _ hpa]
          exact Nat.lt_succ_of_lt (ih x0 hx0' hp hq)
        · rw [List.countP_cons_of_neg _ _ (by simpa using hpa)]
          exact ih x0 hx0' hp hq

theorem unvisCount_mono (univ : List String) (σ τ : DfsState)
    (h : ∀ x ∈ σ.visited, x ∈ τ.visited) :
    unvisCount univ τ ≤ unvisCount univ σ := by
  unfold unvisCount
  rw [← List.countP_eq_length_filter, ← List.countP_eq_length_filter]
  apply List.countP_mono_left
  intro x _ hx
  simp only [decide_eq_true_eq] at hx ⊢
  intro hmem
  exact hx (h x hmem)

theorem unvisCount_insert_lt (univ : List String) (σ : DfsState) (node : String)
    (hu : node ∈ univ) (hv : node ∉ σ.visited) (rs p : List String)
    (c : List (List String)) :
    unvisCount univ ⟨σ.visited.insert node, rs, p, c⟩ < unvisCount univ σ := by
  unfold unvisCount
  rw [← List.countP_eq_length_filter, ← List.countP_eq_length_filter]
  apply countP_lt_of_witness ?_ univ node hu ?_ ?_
  · intro x hx
    simp only [decide_eq_true_eq] at hx ⊢
    intro hmem
    exact hx (List.mem_insert_iff.mpr (Or.inr hmem))
  · simpa using hv
  · simp [List.mem_insert_iff]

end BP

namespace BP

theorem chain'_reflTransGen {r : String → String → Prop} :
    ∀ (l : List String) (a b : String), List.Chain' r l → l.head? = some a →
      l.getLast? = some b → Relation.ReflTransGen r a b := by
  intro l
  induction l with
  | nil => intro a b _ h; cases h
  | cons x t ih =>
    intro a b hchain hhead hlast
    simp only [List.head?_cons, Option.some.injEq] at hhead
    subst hhead
    cases t with
    | nil =>
      simp only [List.getLast?_singleton, Option.some.injEq] at hlast
      subst hlast
      exact Relation.ReflTransGen.refl
    | cons y t' =>
      have hxy : r x y := (List.chain'_cons.mp hchain).1
      have hchain' : List.Chain' r (y :: t') := (List.chain'_cons.mp hchain).2
      have hlast' : (y :: t').getLast? = some b := by
        rw [← hlast, List.getLast?_cons_cons]
      exact Relation.ReflTransGen.head hxy (ih y b hchain' rfl hlast')

/-- A back edge into the recursion stack closes a real cycle: the path
is an edge chain, the hit node sits on it, and the current node (`path`'s
last) has an edge to the hit node. -/
theorem cycle_of_stack_hit (g : String → List String) (path : List String)
    (n last : String) (hchain : List.Chain' (fun a b => b ∈ g a) path)
    (hn : n ∈ path) (hlast : path.getLast? = some last) (hedge : n ∈ g last) :
    Relation.TransGen (gE g) n n := by
  have hidx : path.indexOf n < path.length := List.indexOf_lt_length.mpr hn
  set sfx := path.drop (path.indexOf n) with hsfx
  have hchain_sfx : List.Chain' (fun a b => b ∈ g a) sfx :=
    hchain.suffix (List.drop_suffix _ _)
  have hhead : sfx.head? = some n := by
    rw [hsfx, List.head?_drop]
    refine List.getElem?_eq_some_iff.mpr ⟨hidx, ?_⟩
    have := List.indexOf_get hidx
    rw [List.get_eq_getElem] at this
    exact this
  have hne : sfx ≠ [] := by
    rw [hsfx]
    intro h
    have := List.drop_eq_nil_iff.mp h
    omega
  have hlast_sfx : sfx.getLast? = some last := by
    obtain ⟨y, hy⟩ := Option.isSome_iff_exists.mp (List.getLast?_isSome.mpr hne)
    have hsplit : path = path.take (path.indexOf n) ++ sfx := by
      rw [hsfx, List.take_append_drop]
    rw [hsplit, List.getLast?_append, hy] at hlast
    rw [hy]
    exact hlast
  have hrt : Relation.ReflTransGen (gE g) n last :=
    chain'_reflTransGen sfx n last hchain_sfx hhead hlast_sfx
  exact Relation.TransGen.tail' hrt hedge

end BP

namespace BP

/-- What one `dfs` call guarantees, parameterized by its fuel: frame
(path and stack restored, visited grows), cycle monotonicity,
preservation of the three invariants, and — when the call reports no
cycle — that no cycle passes through the visited node. -/
def VisitOK (g : String → List String) (univ : List String) (f : Nat) : Prop :=
  ∀ (node : String) (σ : DfsState),
    node ∈ univ → node ∉ σ.visited →
    (∀ u b, b ∈ g u → b ∈ univ) →
    (∀ last, σ.path.getLast? = some last → node ∈ g last) →
    DfsWF g σ → DfsCInv g σ → DfsSInv g σ →
    unvisCount univ σ < f →
    (dfsVisit g f node σ).path = σ.path ∧
    (dfsVisit g f node σ).recStack = σ.recStack ∧
    (∀ x ∈ σ.visited, x ∈ (dfsVisit g f node σ).visited) ∧
    node ∈ (dfsVisit g f node σ).visited ∧
    (∃ new, (dfsVisit g f node σ).cycles = σ.cycles ++ new) ∧
    DfsWF g (dfsVisit g f node σ) ∧ DfsCInv g (dfsVisit g f node σ) ∧
    DfsSInv g (dfsVisit g f node σ) ∧
    ((dfsVisit g f node σ).cycles = [] → NoCycThru g node)

/-- What the neighbor loop of one `dfs` call guarantees, given
`VisitOK` at the inner fuel. -/
theorem dfsFold_ok (g : String → List String) (univ : List String) (f : Nat)
    (hV : VisitOK g univ f) (hclosed : ∀ u b, b ∈ g u → b ∈ univ) (last : String) :
    ∀ (ns : List String) (σ : DfsState),
      (∀ n ∈ ns, n ∈ g last) →
      σ.path.getLast? = some last →
      DfsWF g σ → DfsCInv g σ → DfsSInv g σ →
      unvisCount univ σ < f →
      (ns.foldl (dfsStep g f) σ).path = σ.path ∧
      (ns.foldl (dfsStep g f) σ).recStack = σ.recStack ∧
      (∀ x ∈ σ.visited, x ∈ (ns.foldl (dfsStep g f) σ).visited) ∧
      (∃ new, (ns.foldl (dfsStep g f) σ).cycles = σ.cycles ++ new) ∧
      DfsWF g (ns.foldl (dfsStep g f) σ) ∧ DfsCInv g (ns.foldl (dfsStep g f) σ) ∧
      DfsSInv g (ns.foldl (dfsStep g f) σ) ∧
      ((ns.foldl (dfsStep g f) σ).cycles = [] → ∀ n ∈ ns,
        n ∈ (ns.foldl (dfsStep g f) σ).visited ∧
        n ∉ (ns.foldl (dfsStep g f) σ).recStack ∧ NoCycThru g n) := by
  intro ns
  induction ns with
  | nil =>
    intro σ _ _ hWF hC hS _
    exact ⟨rfl, rfl, fun x hx => hx, ⟨[], by simp⟩, hWF, hC, hS,
      fun _ n hn => absurd hn (List.not_mem_nil n)⟩
  | cons n ns ih =>
    intro σ hns hpl hWF hC hS hfuel
    have hn_g : n ∈ g last := hns n (List.mem_cons_self n ns)
    have hns' : ∀ m ∈ ns, m ∈ g last := fun m hm => hns m (List.mem_cons_of_mem n hm)
    simp only [List.foldl_cons]
    by_cases hA : n ∈ σ.visited
    · by_cases hB : n ∈ σ.recStack
      · -- back edge: report a cycle
        have hstep : dfsStep g f σ n =
            { σ with cycles := σ.cycles ++ [cycleFrom σ.path n] } := by
          simp [dfsStep, hA, hB]
        rw [hstep]
        set σp : DfsState := { σ with cycles := σ.cycles ++ [cycleFrom σ.path n] } with hσp
        have hWFp : DfsWF g σp := ⟨hWF.stack_path, hWF.stack_vis, hWF.chain⟩
        have hcycp : Relation.TransGen (gE g) n n :=
          cycle_of_stack_hit g σ.path n last hWF.chain
            ((hWF.stack_path n).mp hB) hpl hn_g
        have hCp : DfsCInv g σp := by
          intro hnil
          exact absurd hnil (by simp [hσp])
        have hSp : DfsSInv g σp := fun _ => ⟨n, hcycp⟩
        obtain ⟨hpath, hrec, hvis, ⟨new2, hcyc2⟩, hWF'', hC'', hS'', hper⟩ :=
          ih σp hns' hpl hWFp hCp hSp hfuel
        refine ⟨hpath, hrec, hvis, ⟨cycleFrom σ.path n :: new2, by
          rw [hcyc2]; simp [hσp]⟩, hWF'', hC'', hS'', ?_⟩
        intro hnil m hm
        exfalso
        rw [hcyc2] at hnil
        rcases List.append_eq_nil.mp hnil with ⟨h1, _⟩
        exact absurd h1 (by simp [hσp])
      · -- already fully explored
        have hstep : dfsStep g f σ n = σ := by
          simp [dfsStep, hA, hB]
        rw [hstep]
        obtain ⟨hpath, hrec, hvis, ⟨new2, hcyc2⟩, hWF'', hC'', hS'', hper⟩ :=
          ih σ hns' hpl hWF hC hS hfuel
        refine ⟨hpath, hrec, hvis, ⟨new2, hcyc2⟩, hWF'', hC'', hS'', ?_⟩
        intro hnil m hm
        rcases List.mem_cons.mp hm with rfl | hm'
        · have hσnil : σ.cycles = [] := by
            rw [hcyc2] at hnil
            exact (List.append_eq_nil.mp hnil).1
          exact ⟨hvis m hA, by rw [hrec]; exact hB, hC hσnil m ⟨hA, hB⟩⟩
        · exact hper hnil m hm'
    · -- unvisited: recursive call
      have hstep : dfsStep g f σ n = dfsVisit g f n σ := by
        simp [dfsStep, hA]
      rw [hstep]
      obtain ⟨hpath1, hrec1, hvis1, hnvis1, ⟨new1, hcyc1⟩, hWF1, hC1, hS1, hno1⟩ :=
        hV n σ (hclosed last n hn_g) hA hclosed
          (fun l' hl' => by
            rw [hpl] at hl'
            cases hl'
            exact hn_g)
          hWF hC hS hfuel
      have hfuel1 : unvisCount univ (dfsVisit g f n σ) < f :=
        Nat.lt_of_le_of_lt (unvisCount_mono univ σ (dfsVisit g f n σ) hvis1) hfuel
      obtain ⟨hpath2, hrec2, hvis2, ⟨new2, hcyc2⟩, hWF'', hC'', hS'', hper⟩ :=
        ih (dfsVisit g f n σ) hns' (by rw [hpath1]; exact hpl) hWF1 hC1 hS1 hfuel1
      refine ⟨by rw [hpath2, hpath1], by rw [hrec2, hrec1], ?_,
        ⟨new1 ++ new2, by rw [hcyc2, hcyc1, List.append_assoc]⟩, hWF'', hC'', hS'', ?_⟩
      · intro x hx
        exact hvis2 x (hvis1 x hx)
      · intro hnil m hm
        have hsub : (dfsVisit g f n σ).cycles = [] := by
          rw [hcyc2] at hnil
          exact (List.append_eq_nil.mp hnil).1
        rcases List.mem_cons.mp hm with rfl | hm'
        · refine ⟨hvis2 m hnvis1, ?_, hno1 hsub⟩
          rw [hrec2, hrec1]
          intro hmem
          exact hA (hWF.stack_vis m hmem)
        · exact hper hnil m hm'

end BP

namespace BP

theorem dfsVisit_ok (g : String → List String) (univ : List String) :
    ∀ f : Nat, VisitOK g univ f := by
  intro f
  induction f with
  | zero =>
    intro node σ _ _ _ _ _ _ _ hfuel
    exact absurd hfuel (Nat.not_lt_zero _)
  | succ f ihf =>
    intro node σ hnode_univ hnode_unvis hclosed hHP hWF hC hS hfuel
    have hnode_nstack : node ∉ σ.recStack := fun h => hnode_unvis (hWF.stack_vis node h)
    rw [dfsVisit_succ]
    simp only []
    set σ1 : DfsState :=
      { visited := σ.visited.insert node, recStack := σ.recStack.insert node,
        path := σ.path ++ [node], cycles := σ.cycles } with hσ1
    have hins : σ.recStack.insert node = node :: σ.recStack :=
      List.insert_of_not_mem hnode_nstack
    have hWF1 : DfsWF g σ1 := by
      refine ⟨?_, ?_, ?_⟩
      · intro x
        simp only [hσ1, List.mem_insert_iff, List.mem_append, List.mem_singleton]
        rw [hWF.stack_path x]
        tauto
      · intro x hx
        simp only [hσ1, List.mem_insert_iff] at hx ⊢
        rcases hx with rfl | hx'
        · exact Or.inl rfl
        · exact Or.inr (hWF.stack_vis x hx')
      · simp only [hσ1]
        rw [List.chain'_append]
        refine ⟨hWF.chain, List.chain'_singleton node, ?_⟩
        intro x hx y hy
        simp only [List.head?_cons, Option.mem_def, Option.some.injEq] at hy
        subst hy
        exact hHP x hx
    have hC1 : DfsCInv g σ1 := by
      intro hnil v hv
      refine hC hnil v ⟨?_, ?_⟩
      · have := hv.1
        simp only [hσ1, List.mem_insert_iff] at this
        rcases this with rfl | h
        · exfalso
          exact hv.2 (by simp [hσ1, List.mem_insert_iff])
        · exact h
      · intro hmem
        exact hv.2 (by simp [hσ1, List.mem_insert_iff, hmem])
    have hS1 : DfsSInv g σ1 := hS
    have hfuel1 : unvisCount univ σ1 < f := by
      have hlt := unvisCount_insert_lt univ σ node hnode_univ hnode_unvis
        σ1.recStack σ1.path σ1.cycles
      have : unvisCount univ σ1 = unvisCount univ
          ⟨σ.visited.insert node, σ1.recStack, σ1.path, σ1.cycles⟩ := rfl
      omega
    have hlast1 : σ1.path.getLast? = some node := by
      simp [hσ1]
    obtain ⟨hpath2, hrec2, hvis2, ⟨new2, hcyc2⟩, hWF2, hC2, hS2, hper⟩ :=
      dfsFold_ok g univ f (ihf) hclosed node (g node) σ1
        (fun m hm => hm) hlast1 hWF1 hC1 hS1 hfuel1
    set σ2 := (g node).foldl (dfsStep g f) σ1 with hσ2
    have hrec2' : σ2.recStack = node :: σ.recStack := by
      rw [hrec2]
      simp only [hσ1]
      exact hins
    have hpath2' : σ2.path = σ.path ++ [node] := by
      rw [hpath2]
    have hNoCycNode : σ2.cycles = [] → NoCycThru g node := by
      intro hnil hcyc
      obtain ⟨b, hb, hrt⟩ := Relation.TransGen.head'_iff.mp hcyc
      obtain ⟨hbvis, hbstack, hbnocyc⟩ := hper hnil b hb
      exact hbnocyc (Relation.TransGen.tail' hrt hb)
    refine ⟨?_, ?_, ?_, ?_, ?_, ?_, ?_, ?_, ?_⟩
    · show σ2.path.dropLast = σ.path
      rw [hpath2', List.dropLast_concat]
    · show σ2.recStack.erase node = σ.recStack
      rw [hrec2', List.erase_cons_head]
    · intro x hx
      show x ∈ σ2.visited
      exact hvis2 x (by simp [hσ1, List.mem_insert_iff, hx])
    · show node ∈ σ2.visited
      exact hvis2 node (by simp [hσ1, List.mem_insert_iff])
    · exact ⟨new2, by rw [hcyc2]⟩
    · refine ⟨?_, ?_, ?_⟩
      · intro x
        show x ∈ σ2.recStack.erase node ↔ x ∈ σ2.path.dropLast
        rw [hrec2', List.erase_cons_head, hpath2', List.dropLast_concat]
        exact hWF.stack_path x
      · intro x hx
        show x ∈ σ2.visited
        rw [show σ2.recStack.erase node = σ.recStack from by
          rw [hrec2', List.erase_cons_head]] at hx
        exact hvis2 x (by simp [hσ1, List.mem_insert_iff, hWF.stack_vis x hx])
      · show List.Chain' _ σ2.path.dropLast
        rw [hpath2', List.dropLast_concat]
        exact hWF.chain
    · intro hnil v hv
      have hnil2 : σ2.cycles = [] := hnil
      have hvrec : v ∉ σ2.recStack.erase node := hv.2
      rw [hrec2', List.erase_cons_head] at hvrec
      by_cases hvn : v = node
      · subst hvn
        exact hNoCycNode hnil2
      · refine hC2 hnil2 v ⟨hv.1, ?_⟩
        rw [hrec2']
        intro hmem
        rcases List.mem_cons.mp hmem with h | h
        · exact hvn h
        · exact hvrec h
    · intro hne
      exact hS2 hne
    · intro hnil
      exact hNoCycNode hnil

end BP

namespace BP

theorem topFold_ok (g : String → List String) (univ : List String) (fuel : Nat)
    (hclosed : ∀ u b, b ∈ g u → b ∈ univ) (hfuel : univ.length < fuel) :
    ∀ (ks : List String) (σ : DfsState),
      (∀ k ∈ ks, k ∈ univ) →
      DfsWF g σ → DfsCInv g σ → DfsSInv g σ → σ.path = [] → σ.recStack = [] →
      (ks.foldl (fun s k =>
        if k ∈ s.visited then s else dfsVisit g fuel k { s with path := [] }) σ).path = [] ∧
      (ks.foldl (fun s k =>
        if k ∈ s.visited then s else dfsVisit g fuel k { s with path := [] }) σ).recStack = [] ∧
      (∀ x ∈ σ.visited, x ∈ (ks.foldl (fun s k =>
        if k ∈ s.visited then s else dfsVisit g fuel k { s with path := [] }) σ).visited) ∧
      (∃ new, (ks.foldl (fun s k =>
        if k ∈ s.visited then s else dfsVisit g fuel k { s with path := [] }) σ).cycles =
        σ.cycles ++ new) ∧
      DfsWF g (ks.foldl (fun s k =>
        if k ∈ s.visited then s else dfsVisit g fuel k { s with path := [] }) σ) ∧
      DfsCInv g (ks.foldl (fun s k =>
        if k ∈ s.visited then s else dfsVisit g fuel k { s with path := [] }) σ) ∧
      DfsSInv g (ks.foldl (fun s k =>
        if k ∈ s.visited then s else dfsVisit g fuel k { s with path := [] }) σ) ∧
      (∀ k ∈ ks, k ∈ (ks.foldl (fun s k =>
        if k ∈ s.visited then s else dfsVisit g fuel k { s with path := [] }) σ).visited) := by
  intro ks
  induction ks with
  | nil =>
    intro σ _ hWF hC hS hp hr
    exact ⟨hp, hr, fun x hx => hx, ⟨[], by simp⟩, hWF, hC, hS,
      fun k hk => absurd hk (List.not_mem_nil k)⟩
  | cons k ks ih =>
    intro σ hks hWF hC hS hp hr
    have hks' : ∀ m ∈ ks, m ∈ univ := fun m hm => hks m (List.mem_cons_of_mem k hm)
    simp only [List.foldl_cons]
    by_cases hkv : k ∈ σ.visited
    · rw [if_pos hkv]
      obtain ⟨h1, h2, h3, h4, h5, h6, h7, h8⟩ := ih σ hks' hWF hC hS hp hr
      exact ⟨h1, h2, h3, h4, h5, h6, h7, fun m hm => by
        rcases List.mem_cons.mp hm with rfl | hm'
        · exact h3 m hkv
        · exact h8 m hm'⟩
    · rw [if_neg hkv]
      have hσEq : ({ σ with path := [] } : DfsState) = σ := by
        cases σ
        simp_all
      rw [hσEq]
      have hfuelσ : unvisCount univ σ < fuel := by
        have : unvisCount univ σ ≤ univ.length := by
          unfold unvisCount
          exact List.length_filter_le _ _
        omega
      obtain ⟨hpath1, hrec1, hvis1, hkvis1, ⟨new1, hcyc1⟩, hWF1, hC1, hS1, _⟩ :=
        dfsVisit_ok g univ fuel k σ (hks k (List.mem_cons_self k ks)) hkv hclosed
          (fun l' hl' => by rw [hp] at hl'; cases hl') hWF hC hS hfuelσ
      obtain ⟨h1, h2, h3, h4, h5, h6, h7, h8⟩ := ih (dfsVisit g fuel k σ) hks' hWF1 hC1 hS1
        (by rw [hpath1]; exact hp) (by rw [hrec1]; exact hr)
      refine ⟨h1, h2, fun x hx => h3 x (hvis1 x hx), ?_, h5, h6, h7, ?_⟩
      · obtain ⟨new2, hcyc2⟩ := h4
        exact ⟨new1 ++ new2, by rw [hcyc2, hcyc1, List.append_assoc]⟩
      · intro m hm
        rcases List.mem_cons.mp hm with rfl | hm'
        · exact h3 m hkvis1
        · exact h8 m hm'

/-- `_detect_circular_dependencies` reports no cycle iff the adjacency
dict's digraph is acyclic (helper shared by the validator claims). -/
theorem detectCircular_nil_iff (tasks : List Task) :
    detectCircular tasks = [] ↔
      ¬ ∃ x, Relation.TransGen (gE (depsOf tasks)) x x := by
  have hclosed : ∀ u b, b ∈ depsOf tasks u →
      b ∈ tasks.map (·.task_id) ++ (tasks.map (·.dependencies)).flatten := by
    intro u b hb
    unfold depsOf at hb
    cases hmap : taskMap tasks u with
    | none => rw [hmap] at hb; cases hb
    | some t =>
      rw [hmap] at hb
      have hb' : b ∈ t.dependencies := hb
      have ht : t ∈ tasks := List.mem_reverse.mp (List.mem_of_find?_eq_some hmap)
      exact List.mem_append_right _
        (List.mem_flatten.mpr ⟨t.dependencies, List.mem_map_of_mem _ ht, hb'⟩)
  have hfuel : (tasks.map (·.task_id) ++ (tasks.map (·.dependencies)).flatten).length <
      (tasks.map (·.task_id) ++ (tasks.map (·.dependencies)).flatten).length + 1 :=
    Nat.lt_succ_self _
  have hkeys : ∀ k ∈ firstDedup (tasks.map (·.task_id)),
      k ∈ tasks.map (·.task_id) ++ (tasks.map (·.dependencies)).flatten := by
    intro k hk
    exact List.mem_append_left _ ((mem_firstDedup _ k).mp hk)
  have hWF0 : DfsWF (depsOf tasks) ⟨[], [], [], []⟩ :=
    ⟨fun x => Iff.rfl, fun x hx => absurd hx (List.not_mem_nil x), List.chain'_nil⟩
  have hC0 : DfsCInv (depsOf tasks) ⟨[], [], [], []⟩ :=
    fun _ v hv => absurd hv.1 (List.not_mem_nil v)
  have hS0 : DfsSInv (depsOf tasks) ⟨[], [], [], []⟩ :=
    fun h => absurd rfl h
  obtain ⟨_, hrF, _, ⟨newF, hcycF⟩, _, hCF, hSF, hperF⟩ :=
    topFold_ok (depsOf tasks) (tasks.map (·.task_id) ++ (tasks.map (·.dependencies)).flatten)
      ((tasks.map (·.task_id) ++ (tasks.map (·.dependencies)).flatten).length + 1)
      hclosed hfuel (firstDedup (tasks.map (·.task_id))) ⟨[], [], [], []⟩
      hkeys hWF0 hC0 hS0 rfl rfl
  have hdet : detectCircular tasks =
      ((firstDedup (tasks.map (·.task_id))).foldl (fun s k =>
        if k ∈ s.visited then s
        else dfsVisit (depsOf tasks)
          ((tasks.map (·.task_id) ++ (tasks.map (·.dependencies)).flatten).length + 1) k
          { s with path := [] }) ⟨[], [], [], []⟩).cycles := rfl
  constructor
  · intro hnil
    rintro ⟨x, hcyc⟩
    obtain ⟨b, hb, _⟩ := Relation.TransGen.head'_iff.mp hcyc
    have hx_id : x ∈ tasks.map (·.task_id) := by
      unfold gE depsOf at hb
      cases hmap : taskMap tasks x with
      | none => rw [hmap] at hb; cases hb
      | some t =>
        have ht : t ∈ tasks := List.mem_reverse.mp (List.mem_of_find?_eq_some hmap)
        have hid : t.task_id = x := by
          have := List.find?_some hmap
          simpa using this
        exact hid ▸ List.mem_map_of_mem _ ht
    have hx_vis := hperF x ((mem_firstDedup _ x).mpr hx_id)
    have hblack : BlackIn _ x := ⟨hx_vis, by rw [hrF]; exact List.not_mem_nil x⟩
    rw [hdet] at hnil
    exact hCF hnil x hblack hcyc
  · intro hnocyc
    by_contra hne
    rw [hdet] at hne
    exact hnocyc (hSF hne)

end BP

namespace BP

theorem existing_of_gE (tasks : List Task) (a b : String)
    (h : gE (depsOf tasks) a b) :
    ∃ t ∈ tasks, t.task_id = a ∧ b ∈ t.dependencies := by
  unfold gE depsOf at h
  cases hmap : taskMap tasks a with
  | none => rw [hmap] at h; cases h
  | some t =>
    rw [hmap] at h
    have hb : b ∈ t.dependencies := h
    have ht : t ∈ tasks := List.mem_reverse.mp (List.mem_of_find?_eq_some hmap)
    have hid : t.task_id = a := by
      have := List.find?_some hmap
      simpa using this
    exact ⟨t, ht, hid, hb⟩

theorem transGen_gE_upgrade (bp : Blueprint) :
    ∀ a b, Relation.TransGen (gE (depsOf (allTasks bp))) a b →
      (∃ c, gE (depsOf (allTasks bp)) b c) → Relation.TransGen (bpEdge bp) a b := by
  intro a b htg
  induction htg with
  | single h =>
    intro ⟨c, hc⟩
    obtain ⟨t, ht, hid, hdep⟩ := existing_of_gE (allTasks bp) _ _ h
    obtain ⟨t', ht', hid', _⟩ := existing_of_gE (allTasks bp) _ _ hc
    exact Relation.TransGen.single ⟨⟨t, ht, hid, hdep⟩, ⟨t', ht', hid'⟩⟩
  | tail hab hbc ih =>
    intro ⟨c, hc⟩
    obtain ⟨t, ht, hid, hdep⟩ := existing_of_gE (allTasks bp) _ _ hbc
    obtain ⟨t', ht', hid', _⟩ := existing_of_gE (allTasks bp) _ _ hc
    exact Relation.TransGen.tail (ih ⟨_, hbc⟩) ⟨⟨t, ht, hid, hdep⟩, ⟨t', ht', hid'⟩⟩

/-- Under unique task ids the last-wins adjacency digraph and the
Blueprint digraph (restricted to existing ids) have the same cycles. -/
theorem gE_cycle_iff_bpHasCycle (bp : Blueprint)
    (hN : ((allTasks bp).map (·.task_id)).Nodup) :
    (∃ x, Relation.TransGen (gE (depsOf (allTasks bp))) x x) ↔ bpHasCycle bp := by
  constructor
  · rintro ⟨x, hcyc⟩
    obtain ⟨b, hb, _⟩ := Relation.TransGen.head'_iff.mp hcyc
    exact ⟨x, transGen_gE_upgrade bp x x hcyc ⟨b, hb⟩⟩
  · rintro ⟨x, hcyc⟩
    refine ⟨x, Relation.TransGen.mono ?_ hcyc⟩
    rintro a b ⟨⟨t, ht, hid, hdep⟩, _⟩
    unfold gE
    rw [← hid, depsOf_of_nodup (allTasks bp) hN t ht]
    exact hdep

theorem dupErrors_codes (tasks : List Task) :
    ∀ e ∈ dupErrors tasks, e.code = "DUPLICATE_ID" := by
  unfold dupErrors
  suffices h : ∀ (l : List Task) (p : List String × List ValidationError),
      (∀ e ∈ p.2, e.code = "DUPLICATE_ID") →
      ∀ e ∈ (l.foldl (fun (p : List String × List ValidationError) t =>
        let (seen, errs) := p
        let errs := if t.task_id ∈ seen then
            errs ++ [{ code := "DUPLICATE_ID",
                       message := "Duplicate task ID: " ++ t.task_id,
                       task_id := some t.task_id }]
          else errs
        (seen.insert t.task_id, errs)) p).2, e.code = "DUPLICATE_ID" by
    exact h tasks ([], []) (fun e he => absurd he (List.not_mem_nil e))
  intro l
  induction l with
  | nil => intro p hp; exact hp
  | cons t l' ih =>
    intro p hp
    simp only [List.foldl_cons]
    apply ih
    intro e he
    simp only at he
    by_cases ht : t.task_id ∈ p.1
    · rw [if_pos ht] at he
      rcases List.mem_append.mp he with h' | h'
      · exact hp e h'
      · rw [List.mem_singleton] at h'
        subst h'
        rfl
    · rw [if_neg ht] at he
      exact hp e he

theorem missingDepErrors_codes (tasks : List Task) :
    ∀ e ∈ missingDepErrors tasks, e.code = "MISSING_DEP" := by
  intro e he
  unfold missingDepErrors at he
  obtain ⟨l, hl, hel⟩ := List.mem_flatten.mp he
  obtain ⟨t, _, rfl⟩ := List.mem_map.mp hl
  obtain ⟨d, _, rfl⟩ := List.mem_map.mp hel
  rfl

theorem fieldErrors_codes (tasks : List Task) :
    ∀ e ∈ fieldErrors tasks, e.code = "MISSING_FIELD" ∨ e.code = "MISSING_TEST" := by
  intro e he
  unfold fieldErrors at he
  obtain ⟨l, hl, hel⟩ := List.mem_flatten.mp he
  obtain ⟨t, _, rfl⟩ := List.mem_map.mp hl
  rcases List.mem_append.mp hel with h' | h'
  · rcases List.mem_append.mp h' with h'' | h''
    · left
      split at h''
      · rw [List.mem_singleton] at h''; subst h''; rfl
      · cases h''
    · left
      split at h''
      · rw [List.mem_singleton] at h''; subst h''; rfl
      · cases h''
  · right
    split at h'
    · rw [List.mem_singleton] at h'; subst h'; rfl
    · cases h'

theorem circularErrors_codes (tasks : List Task) :
    ∀ e ∈ circularErrors tasks, e.code = "CIRCULAR_DEP" := by
  intro e he
  obtain ⟨c, _, rfl⟩ := List.mem_map.mp he
  rfl

end BP

namespace BP

/-- When `validate` returns (instead of raising), the error list is the
concatenation of the four error checks, in order. -/
theorem validate_errors (bp : Blueprint) (res : ValidationResult)
    (hok : validate bp = .ok res) :
    res.errors = dupErrors (allTasks bp) ++ missingDepErrors (allTasks bp) ++
      circularErrors (allTasks bp) ++ fieldErrors (allTasks bp) := by
  unfold validate at hok
  cases hifc : checkInterfaceCompat (allTasks bp) with
  | error e =>
    simp only [hifc, Bind.bind, Except.bind] at hok
    exact Except.noConfusion hok
  | ok ws =>
    simp only [hifc, Bind.bind, Except.bind, pure, Except.pure, Except.ok.injEq] at hok
    rw [← hok]

/-- Filtering a returned error list for code CIRCULAR_DEP yields exactly
the cycle errors: the other three checks use other codes. -/
theorem filter_circ_of_validate (bp : Blueprint) (res : ValidationResult)
    (hok : validate bp = .ok res) :
    res.errors.filter (fun e => e.code == "CIRCULAR_DEP") =
      circularErrors (allTasks bp) := by
  rw [validate_errors bp res hok]
  rw [List.filter_append, List.filter_append, List.filter_append]
  have h1 : (dupErrors (allTasks bp)).filter (fun e => e.code == "CIRCULAR_DEP") = [] := by
    refine List.filter_eq_nil_iff.mpr (fun e he => ?_)
    rw [dupErrors_codes (allTasks bp) e he]
    decide
  have h2 : (missingDepErrors (allTasks bp)).filter
      (fun e => e.code == "CIRCULAR_DEP") = [] := by
    refine List.filter_eq_nil_iff.mpr (fun e he => ?_)
    rw [missingDepErrors_codes (allTasks bp) e he]
    decide
  have h3 : (fieldErrors (allTasks bp)).filter
      (fun e => e.code == "CIRCULAR_DEP") = [] := by
    refine List.filter_eq_nil_iff.mpr (fun e he => ?_)
    rcases fieldErrors_codes (allTasks bp) e he with h | h <;> rw [h] <;> decide
  have h4 : (circularErrors (allTasks bp)).filter
      (fun e => e.code == "CIRCULAR_DEP") = circularErrors (allTasks bp) := by
    refine List.filter_eq_self.mpr (fun e he => ?_)
    rw [circularErrors_codes (allTasks bp) e he]
    rfl
  rw [h1, h2, h3, h4, List.nil_append, List.nil_append, List.append_nil]

end BP

namespace BP

/-- First task with id `A`: it depends on `B`. -/
def taskDupA1 : Task :=
  { task_id := "A", name := "A", dependencies := ["B"], test_command := "t",
    iface := some { input := "", output := "" } }

/-- Second task with the same id `A` and no dependencies: in the
validator's adjacency dict it overwrites the first one. -/
def taskDupA2 : Task :=
  { task_id := "A", name := "A dup", dependencies := [], test_command := "t",
    iface := some { input := "", output := "" } }

/-- Task `B`, depending on `A`. -/
def taskDupB : Task :=
  { task_id := "B", name := "B", dependencies := ["A"], test_command := "t",
    iface := some { input := "", output := "" } }

/-- A Blueprint whose dependency digraph has the cycle `A -> B -> A`
(via the first `A` task), hidden from the validator because the
duplicated id `A` makes the last-wins adjacency dict drop `A -> B`. -/
def bpDupIds : Blueprint :=
  { metadata := { title := "Dup" },
    tiers := [mkTier "TD" "Tier D" [taskDupA1, taskDupA2, taskDupB] none .not_started] }

/-- The result `validate` returns on `bpDupIds`. -/
def c3DupRes : ValidationResult :=
  match validate bpDupIds with
  | .ok r => r
  | .error _ => { passed := false, errors := [], warnings := [] }

/-- **C3, counterexample.**  On `bpDupIds` the dependency digraph
restricted to edges among existing task ids contains a cycle
(`A -> B` via the first task with id `A`, and `B -> A`), yet `validate`
returns zero `CIRCULAR_DEP` errors: `_detect_circular_dependencies`
builds `graph[task.task_id] = task.dependencies` last-wins, so the
duplicated id `A` erases the edge `A -> B` before the DFS runs. -/
theorem validator_circular_counterexample :
    validate bpDupIds = Except.ok c3DupRes ∧
    c3DupRes.errors.filter (fun e => e.code == "CIRCULAR_DEP") = [] ∧
    bpHasCycle bpDupIds := by
  have hAB : bpEdge bpDupIds "A" "B" :=
    ⟨⟨taskDupA1, by decide, rfl, by decide⟩, ⟨taskDupB, by decide, rfl⟩⟩
  have hBA : bpEdge bpDupIds "B" "A" :=
    ⟨⟨taskDupB, by decide, rfl, by decide⟩, ⟨taskDupA1, by decide, rfl⟩⟩
  exact ⟨rfl, rfl,
    ⟨"A", Relation.TransGen.head hAB (Relation.TransGen.single hBA)⟩⟩

/-- **C3 (amended: unique task ids, and `validate` returns rather than
raising).**  For every Blueprint with pairwise-distinct task ids on
which `validate` returns a result, the result holds at least one
`CIRCULAR_DEP` error if and only if the dependency digraph restricted
to edges among existing task ids contains a cycle; in particular on an
acyclic digraph it holds zero `CIRCULAR_DEP` errors. -/
theorem validator_circular_iff_cycle (bp : Blueprint) (res : ValidationResult)
    (hN : ((allTasks bp).map (fun t => t.task_id)).Nodup)
    (hok : validate bp = Except.ok res) :
    res.errors.filter (fun e => e.code == "CIRCULAR_DEP") ≠ [] ↔ bpHasCycle bp := by
  rw [filter_circ_of_validate bp res hok, ne_eq]
  unfold circularErrors
  rw [List.map_eq_nil_iff, detectCircular_nil_iff, not_not]
  exact gE_cycle_iff_bpHasCycle bp hN

/-- The result `validate` returns on the cyclic Blueprint `bpCycle`. -/
def c3Res : ValidationResult :=
  match validate bpCycle with
  | .ok r => r
  | .error _ => { passed := false, errors := [], warnings := [] }

/-- Witness for the amended C3: on the two-task cycle `bpCycle` the
returned error list, filtered to `CIRCULAR_DEP`, is nonempty. -/
theorem validator_circular_iff_cycle_witness :
    c3Res.errors.filter (fun e => e.code == "CIRCULAR_DEP") ≠ [] := by
  have hT12 : bpEdge bpCycle "T1" "T2" :=
    ⟨⟨taskCycT1, by decide, rfl, by decide⟩, ⟨taskCycT2, by decide, rfl⟩⟩
  have hT21 : bpEdge bpCycle "T2" "T1" :=
    ⟨⟨taskCycT2, by decide, rfl, by decide⟩, ⟨taskCycT1, by decide, rfl⟩⟩
  exact (validator_circular_iff_cycle bpCycle c3Res (by decide) rfl).mpr
    ⟨"T1", Relation.TransGen.head hT12 (Relation.TransGen.single hT21)⟩

end BP
